import Mathlib

/-!
Verification of the encoding-inference engine of `nv_isa_solver`
(`src/nv_isa_solver/instruction_solver.py`), via a shallow embedding of its
data model and operations in Lean 4.

Conventions of the embedding:
* A 16-byte instruction word is a natural number (`Nat`), bit `i` of the word
  being bit `i` of the number (the Python code reads bit `i` of the
  little-endian byte buffer as `array[i // 8] >> (i % 8) & 1`, which is the
  same bit).
* Python `dict`s are association lists in insertion order; `set`s of bit
  positions are duplicate-free lists of `ℤ` (positions can go negative
  transiently, and Python keeps them as ordinary set elements);
  `collections.Counter` is an association list of `(token, count)` pairs in
  insertion order.
* Python integers are `Int`; fallible operations (exceptions, out-of-bounds
  accesses) return `Option`.
* The external disassembler+parser pair is an oracle function from the probed
  word to a parse result, reflecting the spec's treatment of the disassembler
  as a pure function of the input word (§5, §6).
-/

namespace NvIsaSolver

/-- A JSON scalar value, as produced by `json.dumps` of an
`EncodingRange.__dict__` field (only ints, strings, booleans and null occur). -/
inductive JsonVal where
  | jnull : JsonVal
  | jint : Int → JsonVal
  | jstr : String → JsonVal
  | jbool : Bool → JsonVal
deriving DecidableEq

/-- `EncodingRangeType` from the source (a `str` Enum); `toStr` gives the
enum's string value used by JSON serialization. -/
inductive EncodingRangeType where
  | CONSTANT
  | OPERAND
  | OPERAND_FLAG
  | OPERAND_MODIFIER
  | FLAG
  | MODIFIER
  | PREDICATE
  | STALL_CYCLES
  | YIELD_FLAG
  | READ_BARRIER
  | WRITE_BARRIER
  | BARRIER_MASK
  | REUSE_MASK
deriving DecidableEq

/-- The string value of each `EncodingRangeType` enum member. -/
def EncodingRangeType.toStr : EncodingRangeType → String
  | .CONSTANT => "constant"
  | .OPERAND => "operand"
  | .OPERAND_FLAG => "operand_flag"
  | .OPERAND_MODIFIER => "operand_modifier"
  | .FLAG => "flag"
  | .MODIFIER => "modifier"
  | .PREDICATE => "predicate"
  | .STALL_CYCLES => "stall"
  | .YIELD_FLAG => "y"
  | .READ_BARRIER => "r-bar"
  | .WRITE_BARRIER => "w-bar"
  | .BARRIER_MASK => "b-mask"
  | .REUSE_MASK => "reuse"

/-- Inverse of `EncodingRangeType.toStr` (the string Enum lookup). -/
def EncodingRangeType.ofStr (s : String) : Option EncodingRangeType :=
  if s = "constant" then some .CONSTANT
  else if s = "operand" then some .OPERAND
  else if s = "operand_flag" then some .OPERAND_FLAG
  else if s = "operand_modifier" then some .OPERAND_MODIFIER
  else if s = "flag" then some .FLAG
  else if s = "modifier" then some .MODIFIER
  else if s = "predicate" then some .PREDICATE
  else if s = "stall" then some .STALL_CYCLES
  else if s = "y" then some .YIELD_FLAG
  else if s = "r-bar" then some .READ_BARRIER
  else if s = "w-bar" then some .WRITE_BARRIER
  else if s = "b-mask" then some .BARRIER_MASK
  else if s = "reuse" then some .REUSE_MASK
  else none

/-- `EncodingRange` from the source: the ten fields stored by `__init__`.
Optional fields default to `None` (here `none`); `inverse` defaults to
`False`.  `shift` is always a bit count (set from a probe index), `offset`
can be a negative residual, `constant` is a non-negative accumulated bit
pattern. -/
structure EncodingRange where
  type : EncodingRangeType
  start : Nat
  length : Nat
  operand_index : Option Nat := none
  group_id : Option Nat := none
  name : Option String := none
  constant : Option Nat := none
  inverse : Bool := false
  shift : Option Nat := none
  offset : Option Int := none
deriving DecidableEq

/-- The JSON object produced by `EncodingRange.to_json_obj` (= `self.__dict__`
serialized): one JSON scalar per field, keyed by the field names. -/
structure RangeJsonObj where
  type : JsonVal
  start : JsonVal
  length : JsonVal
  operand_index : JsonVal
  group_id : JsonVal
  name : JsonVal
  constant : JsonVal
  inverse : JsonVal
  shift : JsonVal
  offset : JsonVal
deriving DecidableEq

/-- JSON encoding of an optional natural number field (int or null). -/
def jsonOfOptNat : Option Nat → JsonVal
  | none => .jnull
  | some n => .jint n

/-- JSON encoding of an optional integer field (int or null). -/
def jsonOfOptInt : Option Int → JsonVal
  | none => .jnull
  | some n => .jint n

/-- JSON encoding of an optional string field (string or null). -/
def jsonOfOptStr : Option String → JsonVal
  | none => .jnull
  | some s => .jstr s

/-- `EncodingRange.to_json_obj` from the source: `self.__dict__`, with the
`str`-Enum `type` serializing to its string value. -/
def EncodingRange.to_json_obj (r : EncodingRange) : RangeJsonObj where
  type := .jstr r.type.toStr
  start := .jint r.start
  length := .jint r.length
  operand_index := jsonOfOptNat r.operand_index
  group_id := jsonOfOptNat r.group_id
  name := jsonOfOptStr r.name
  constant := jsonOfOptNat r.constant
  inverse := .jbool r.inverse
  shift := jsonOfOptNat r.shift
  offset := jsonOfOptInt r.offset

/-- Decoding of an optional natural number JSON field. -/
def optNatOfJson : JsonVal → Option (Option Nat)
  | .jnull => some none
  | .jint n => if 0 ≤ n then some (some n.toNat) else none
  | _ => none

/-- Decoding of an optional integer JSON field. -/
def optIntOfJson : JsonVal → Option (Option Int)
  | .jnull => some none
  | .jint n => some (some n)
  | _ => none

/-- Decoding of an optional string JSON field. -/
def optStrOfJson : JsonVal → Option (Option String)
  | .jnull => some none
  | .jstr s => some (some s)
  | _ => none

/-- `EncodingRange.from_json_obj` from the source: `cls(**obj)`.  The Python
constructor stores the JSON scalars as-is; since `EncodingRangeType` is a
`str` Enum, the deserialized `type` string compares equal (Python `==`) to the
original enum member exactly when `EncodingRangeType.ofStr` recovers that
member, so the embedding re-types each field, returning `none` if a field does
not have the JSON shape `to_json_obj` produces.  Equality of the resulting
`EncodingRange` with the original is field-by-field Python `==`. -/
def EncodingRange.from_json_obj (o : RangeJsonObj) : Option EncodingRange := do
  let t ← match o.type with
    | .jstr s => EncodingRangeType.ofStr s
    | _ => none
  let start ← match o.start with
    | .jint n => if 0 ≤ n then some n.toNat else none
    | _ => none
  let length ← match o.length with
    | .jint n => if 0 ≤ n then some n.toNat else none
    | _ => none
  let operand_index ← optNatOfJson o.operand_index
  let group_id ← optNatOfJson o.group_id
  let name ← optStrOfJson o.name
  let constant ← optNatOfJson o.constant
  let inverse ← match o.inverse with
    | .jbool b => some b
    | _ => none
  let shift ← optNatOfJson o.shift
  let offset ← optIntOfJson o.offset
  pure ⟨t, start, length, operand_index, group_id, name, constant, inverse, shift, offset⟩

/-! ## Bit-field primitives

`set_bit_range` and `get_bit_range` are imported from `disasm_utils`, which
is not part of this repository snapshot; they are modelled from the spec.
`set_bit` is defined in the source itself (instruction_solver.py line 712). -/

/-- Modelled from the spec: `get_range(word, lo, hi)` "returns the unsigned
integer formed by bits `[lo, hi)` of the little-endian byte buffer" (§4.1);
the missing code is `disasm_utils.get_bit_range`. -/
def get_bit_range (word : Nat) (lo hi : Nat) : Nat :=
  (word >>> lo) % 2 ^ (hi - lo)

/-- Modelled from the spec: `set_range(word, lo, hi, value)` "writes the low
`hi - lo` bits of `value` into that span, leaving others untouched", on a
mutable 16-byte buffer, with bounds violations fatal (§4.1, §7); the missing
code is `disasm_utils.set_bit_range`.  Writing the low bits of a negative
Python int means writing `value mod 2^(hi-lo)`. -/
def set_bit_range (word : Nat) (lo : Int) (hi : Nat) (value : Int) : Option Nat :=
  if 0 ≤ lo ∧ lo.toNat ≤ hi ∧ hi ≤ 128 then
    let lo' := lo.toNat
    let v : Nat := (Int.emod value (2 ^ (hi - lo'))).toNat
    some (word % 2 ^ lo' + v * 2 ^ lo' + (word >>> hi) <<< hi)
  else none

/-- `set_bit(array, i)` from the source: `array[i // 8] ^= 1 << (i % 8)` on a
16-byte bytearray.  Python floor-division/modulo and negative list indexing
mean `i ∈ [-128, 0)` wraps to bit `128 + i`; other out-of-range indices raise
`IndexError`. -/
def set_bit (word : Nat) (i : Int) : Option Nat :=
  let byteIdx : Int := Int.fdiv i 8
  let bitOff : Nat := (Int.emod i 8).toNat
  if 0 ≤ byteIdx ∧ byteIdx < 16 then
    some (word ^^^ 1 <<< (byteIdx.toNat * 8 + bitOff))
  else if -16 ≤ byteIdx ∧ byteIdx < 0 then
    some (word ^^^ 1 <<< ((16 + byteIdx).toNat * 8 + bitOff))
  else none

/-- Python's `>>` on ints: arithmetic shift, i.e. floor division by `2^n`. -/
def pyShiftRight (v : Int) (n : Nat) : Int :=
  Int.fdiv v (2 ^ n)

/-- Python's `v ^ (2^n - 1)`: XOR with an all-ones mask of width `n`
(flips the low `n` bits, two's complement for negatives).  Uses the identity
`x ^ m = x + m - 2*(x & m)` with `x & (2^n - 1) = x mod 2^n`. -/
def pyXorMask (v : Int) (n : Nat) : Int :=
  v + (2 ^ n - 1) - 2 * Int.emod v (2 ^ n)

/-! ## `EncodingRanges` and the encoder -/

/-- `EncodingRanges` from the source: a range list plus the seed word. -/
structure EncodingRanges where
  ranges : List EncodingRange
  inst : Nat
deriving DecidableEq

/-- Accumulator loop of `EncodingRanges.operand_count`:
`result = max(result, range.operand_index + 1)` over `OPERAND` ranges.
Python raises `TypeError` (here `none`) if an `OPERAND` range has
`operand_index = None`. -/
def operandCountGo : List EncodingRange → Nat → Option Nat
  | [], acc => some acc
  | r :: rest, acc =>
    if r.type = EncodingRangeType.OPERAND then
      match r.operand_index with
      | none => none
      | some i => operandCountGo rest (max acc (i + 1))
    else operandCountGo rest acc

/-- `EncodingRanges.operand_count` from the source. -/
def EncodingRanges.operand_count (er : EncodingRanges) : Option Nat :=
  operandCountGo er.ranges 0

/-- `EncodingRanges._find` from the source. -/
def EncodingRanges.findType (er : EncodingRanges) (t : EncodingRangeType) : List EncodingRange :=
  er.ranges.filter (fun r => r.type = t)

/-- `EncodingRanges.get_flags` from the source: the (possibly `None`) names of
the `FLAG` ranges. -/
def EncodingRanges.get_flags (er : EncodingRanges) : List (Option String) :=
  (er.findType EncodingRangeType.FLAG).map (fun r => r.name)

/-- The arguments of `EncodingRanges.encode` (with their Python defaults
spelled out at call sites). -/
structure EncodeArgs where
  sub_operands : List Int
  modifiers : List Int
  flags : List String
  operand_modifiers : List (Nat × Int)
  operand_flags : List (Nat × List String)
  predicate : Int
  stall_cycles : Int
  yield_flag : Bool
  read_barrier : Int
  write_barrier : Int
  barrier_mask : Int

/-- Association-list lookup, modelling Python `dict` access that returns the
value for a key if present (`k in d` / `d[k]`). -/
def pyGet? {κ ν : Type} [DecidableEq κ] : List (κ × ν) → κ → Option ν
  | [], _ => none
  | (k', v') :: rest, k => if k' = k then some v' else pyGet? rest k

/-- Python `dict` assignment `d[k] = v`: update in place if the key exists
(keeping its position), otherwise append (insertion order). -/
def pySet {κ ν : Type} [DecidableEq κ] : List (κ × ν) → κ → ν → List (κ × ν)
  | [], k, v => [(k, v)]
  | (k', v') :: rest, k, v =>
    if k' = k then (k, v) :: rest else (k', v') :: pySet rest k v

/-- Python `del d[k]` (tolerating an absent key, used where the source guards
the deletion with a membership test). -/
def pyDel {κ ν : Type} [DecidableEq κ] (d : List (κ × ν)) (k : κ) : List (κ × ν) :=
  d.filter (fun p => p.1 ≠ k)

/-- Truthiness of `rng.operand_index` in Python: `None` and `0` are falsy. -/
def truthyIdx : Option Nat → Bool
  | none => false
  | some k => k ≠ 0

/-- The per-range `value` computation of `EncodingRanges.encode` (the
`if`/`elif` cascade over `rng.type`), together with the updated modifier
cursor.  Result `none` models a raised exception (indexing `sub_operands`
out of range, or with a `None` operand index); `some (none, _)` means no
value was produced (the range is skipped); `some (some v, _)` is a value. -/
def encodeRangeValue (a : EncodeArgs) (rng : EncodingRange) (modifier_i : Nat) :
    Option (Option Int × Nat) :=
  match rng.type with
  | .CONSTANT => some (rng.constant.map (fun c => (c : Int)), modifier_i)
  | .OPERAND =>
    match rng.operand_index with
    | none => none
    | some idx =>
      match a.sub_operands[idx]? with
      | none => none
      | some v0 =>
        let v1 := match rng.offset with
          | some o => v0 - o
          | none => v0
        let v2 := if rng.inverse then pyXorMask v1 rng.length else v1
        let v3 := match rng.shift with
          | some sh => pyShiftRight v2 sh
          | none => v2
        some (some v3, modifier_i)
  | .MODIFIER =>
    if modifier_i < a.modifiers.length then
      some (some (a.modifiers.getD modifier_i 0), modifier_i + 1)
    else some (none, modifier_i)
  | .FLAG =>
    match rng.name with
    | some n => if n ∈ a.flags then some (some 1, modifier_i) else some (none, modifier_i)
    | none => some (none, modifier_i)
  | .OPERAND_MODIFIER =>
    match rng.operand_index with
    | some idx => some (pyGet? a.operand_modifiers idx, modifier_i)
    | none => some (none, modifier_i)
  | .OPERAND_FLAG =>
    match rng.operand_index with
    | some idx =>
      match pyGet? a.operand_flags idx with
      | some lst =>
        let hit : Bool := match rng.name with
          | some n => decide (n ∈ lst)
          | none => false
        some (some (if hit then 1 else 0), modifier_i)
      | none => some (none, modifier_i)
    | none => some (none, modifier_i)
  | .PREDICATE => some (some a.predicate, modifier_i)
  | .STALL_CYCLES => some (some a.stall_cycles, modifier_i)
  | .YIELD_FLAG => some (some (if a.yield_flag then 1 else 0), modifier_i)
  | .READ_BARRIER => some (some a.read_barrier, modifier_i)
  | .WRITE_BARRIER => some (some a.write_barrier, modifier_i)
  | .BARRIER_MASK => some (some a.barrier_mask, modifier_i)
  | .REUSE_MASK => some (none, modifier_i)

/-- Main loop of `EncodingRanges.encode`:
`if not value: continue`, `value >>= written[rng.operand_index]`,
`set_bit_range(result, ...)`, and the update
`if rng.operand_index: written[rng.operand_index] = rng.length`
(note: a truthiness test, and an assignment rather than an accumulation).
`written` is a `defaultdict(int)` keyed by the (optional) operand index. -/
def encodeGo (a : EncodeArgs) :
    List EncodingRange → Nat → (Option Nat → Nat) → Nat → Option Nat
  | [], _, _, result => some result
  | rng :: rest, modifier_i, written, result =>
    match encodeRangeValue a rng modifier_i with
    | none => none
    | some (value, mi') =>
      match value with
      | none => encodeGo a rest mi' written result
      | some v =>
        if v = 0 then encodeGo a rest mi' written result
        else
          let v' := pyShiftRight v (written rng.operand_index)
          match set_bit_range result rng.start (rng.start + rng.length) v' with
          | none => none
          | some result' =>
            let written' :=
              if truthyIdx rng.operand_index then
                fun q => if q = rng.operand_index then rng.length else written q
              else written
            encodeGo a rest mi' written' result'

/-- `EncodingRanges.encode` from the source: returns the encoded 16-byte word,
or `none` when the Python code would raise. -/
def EncodingRanges.encode (er : EncodingRanges) (a : EncodeArgs) : Option Nat :=
  encodeGo a er.ranges 0 (fun _ => 0) 0

/-! ## Supporting lemmas for the JSON round trip (C9) -/

theorem ofStr_toStr (t : EncodingRangeType) :
    EncodingRangeType.ofStr t.toStr = some t := by
  cases t <;> rfl

theorem optNat_roundtrip (o : Option Nat) :
    optNatOfJson (jsonOfOptNat o) = some o := by
  cases o <;> simp [optNatOfJson, jsonOfOptNat]

theorem optInt_roundtrip (o : Option Int) :
    optIntOfJson (jsonOfOptInt o) = some o := by
  cases o <;> simp [optIntOfJson, jsonOfOptInt]

theorem optStr_roundtrip (o : Option String) :
    optStrOfJson (jsonOfOptStr o) = some o := by
  cases o <;> simp [optStrOfJson, jsonOfOptStr]

/-- C9: for every `EncodingRange` `r`, the round trip
`EncodingRange.from_json_obj (r.to_json_obj)` recovers a range all of whose
fields (`type`, `start`, `length`, `operand_index`, `group_id`, `name`,
`constant`, `inverse`, `shift`, `offset`) equal those of `r`: JSON
serialization of ranges is lossless.  (Formalized at the JSON-object level,
as the claim's parenthetical sanctions; the string level is
`json.dumps`/`json.loads` of exactly this object.) -/
theorem claim_c9_json_roundtrip (r : EncodingRange) :
    EncodingRange.from_json_obj r.to_json_obj = some r := by
  obtain ⟨t, st, len, oi, gid, nm, c, inv, sh, off⟩ := r
  simp [EncodingRange.from_json_obj, EncodingRange.to_json_obj, ofStr_toStr,
    optNat_roundtrip, optInt_roundtrip, optStr_roundtrip]

/-! ## C1: the cross-range shift accumulator in `encode` -/

/-- Two `OPERAND` ranges sharing operand index 0 (4 bits at bit 0 and 4 bits
at bit 8). -/
def c1RangesA : EncodingRanges :=
  ⟨[{ type := .OPERAND, start := 0, length := 4, operand_index := some 0 },
    { type := .OPERAND, start := 8, length := 4, operand_index := some 0 }], 0⟩

/-- Three `OPERAND` ranges sharing operand index 1 (4 bits each at bits 0, 8
and 16). -/
def c1RangesB : EncodingRanges :=
  ⟨[{ type := .OPERAND, start := 0, length := 4, operand_index := some 1 },
    { type := .OPERAND, start := 8, length := 4, operand_index := some 1 },
    { type := .OPERAND, start := 16, length := 4, operand_index := some 1 }], 0⟩

/-- `encode` call with `sub_operands = [18]` and all other arguments at their
Python defaults. -/
def c1ArgsA : EncodeArgs := ⟨[18], [], [], [], [], 7, 15, false, 0, 0, 0⟩

/-- `encode` call with `sub_operands = [0, 528]` and all other arguments at
their Python defaults. -/
def c1ArgsB : EncodeArgs := ⟨[0, 528], [], [], [], [], 7, 15, false, 0, 0, 0⟩

/-- C1 (code-bug evidence): the shift-accumulator rule fails in the code.
(a) For operand index 0 no shift is ever applied: encoding operand value 18
across `c1RangesA` writes the unshifted low bits `18 mod 16 = 2` into the
second range (bits `[8,12)` of the result are `2`), whereas the claim
requires the second range to hold `18 >> 4 = 1`.  `written[0]` is never
updated because `if rng.operand_index:` treats index 0 as falsy.
(b) For a non-zero operand index the code assigns `written[idx] = rng.length`
instead of accumulating: encoding operand value 528 across the three ranges of
`c1RangesB` writes `528 >> 4 = 33` (low bits `1`) into the third range
(bits `[16,20)` are `1`), whereas the claim requires
`528 >> (4+4) = 2` there. -/
theorem claim_c1_shift_accumulator_eval :
    (c1RangesA.encode c1ArgsA = some 514 ∧
      get_bit_range 514 8 12 = 2 ∧ ((18 : Nat) >>> 4) % 2 ^ 4 = 1) ∧
    (c1RangesB.encode c1ArgsB = some 65792 ∧
      get_bit_range 65792 16 20 = 1 ∧ ((528 : Nat) >>> 8) % 2 ^ 4 = 2) := by
  decide

/-! ## C10: safety of `encode` under the operand-count precondition -/

theorem operandCountGo_spec :
    ∀ (l : List EncodingRange) (acc k : Nat), operandCountGo l acc = some k →
      acc ≤ k ∧ ∀ r ∈ l, r.type = EncodingRangeType.OPERAND →
        ∃ i, r.operand_index = some i ∧ i + 1 ≤ k := by
  intro l
  induction l with
  | nil =>
    intro acc k h
    simp only [operandCountGo, Option.some.injEq] at h
    subst h
    simp
  | cons r rest ih =>
    intro acc k h
    simp only [operandCountGo] at h
    by_cases ht : r.type = EncodingRangeType.OPERAND
    · rw [if_pos ht] at h
      cases hoi : r.operand_index with
      | none => rw [hoi] at h; cases h
      | some i =>
        rw [hoi] at h
        obtain ⟨hle, hall⟩ := ih _ _ h
        refine ⟨le_trans (le_max_left _ _) hle, ?_⟩
        intro r' hr' ht'
        rcases List.mem_cons.mp hr' with rfl | hr'
        · exact ⟨i, hoi, le_trans (le_max_right acc (i + 1)) hle⟩
        · exact hall r' hr' ht'
    · rw [if_neg ht] at h
      obtain ⟨hle, hall⟩ := ih _ _ h
      refine ⟨hle, ?_⟩
      intro r' hr' ht'
      rcases List.mem_cons.mp hr' with rfl | hr'
      · exact absurd ht' ht
      · exact hall r' hr' ht'

theorem set_bit_range_isSome (word : Nat) (start len : Nat) (v : Int)
    (h : start + len ≤ 128) :
    (set_bit_range word (start : Int) (start + len) v).isSome := by
  rw [set_bit_range, if_pos]
  · rfl
  · refine ⟨Int.natCast_nonneg start, ?_, h⟩
    rw [Int.toNat_natCast]
    exact Nat.le_add_right _ _

theorem encodeRangeValue_isSome (a : EncodeArgs) (rng : EncodingRange) (mi : Nat)
    (h : rng.type = EncodingRangeType.OPERAND →
      ∃ i, rng.operand_index = some i ∧ i < a.sub_operands.length) :
    (encodeRangeValue a rng mi).isSome := by
  obtain ⟨t, st, len, oi, gid, nm, c, inv, sh, off⟩ := rng
  cases t
  case OPERAND =>
    obtain ⟨i, hoi, hlen⟩ := h rfl
    simp only at hoi
    subst hoi
    simp [encodeRangeValue, List.getElem?_eq_getElem hlen]
  case MODIFIER =>
    simp only [encodeRangeValue]
    split <;> rfl
  case FLAG =>
    cases nm with
    | none => rfl
    | some n =>
      simp only [encodeRangeValue]
      split <;> rfl
  case OPERAND_MODIFIER => cases oi <;> rfl
  case OPERAND_FLAG =>
    cases oi with
    | none => rfl
    | some k =>
      simp only [encodeRangeValue]
      cases pyGet? a.operand_flags k <;> rfl
  all_goals rfl

theorem encodeGo_isSome (a : EncodeArgs) :
    ∀ (l : List EncodingRange) (mi : Nat) (w : Option Nat → Nat) (res : Nat),
      (∀ r ∈ l, r.start + r.length ≤ 128) →
      (∀ r ∈ l, r.type = EncodingRangeType.OPERAND →
        ∃ i, r.operand_index = some i ∧ i < a.sub_operands.length) →
      (encodeGo a l mi w res).isSome := by
  intro l
  induction l with
  | nil => intro mi w res _ _; simp [encodeGo]
  | cons rng rest ih =>
    intro mi w res hb hop
    have hval := encodeRangeValue_isSome a rng mi
      (fun ht => hop rng (List.mem_cons_self _ _) ht)
    simp only [encodeGo]
    obtain ⟨⟨value, mi'⟩, hv⟩ := Option.isSome_iff_exists.mp hval
    rw [hv]
    have hbrest : ∀ r ∈ rest, r.start + r.length ≤ 128 :=
      fun r hr => hb r (List.mem_cons_of_mem _ hr)
    have hoprest : ∀ r ∈ rest, r.type = EncodingRangeType.OPERAND →
        ∃ i, r.operand_index = some i ∧ i < a.sub_operands.length :=
      fun r hr => hop r (List.mem_cons_of_mem _ hr)
    cases value with
    | none => exact ih mi' w res hbrest hoprest
    | some v =>
      simp only
      by_cases hz : v = 0
      · rw [if_pos hz]
        exact ih mi' w res hbrest hoprest
      · rw [if_neg hz]
        have hset := set_bit_range_isSome res rng.start rng.length
          (pyShiftRight v (w rng.operand_index)) (hb rng (List.mem_cons_self _ _))
        obtain ⟨res', hres'⟩ := Option.isSome_iff_exists.mp hset
        rw [hres']
        exact ih mi' _ res' hbrest hoprest

/-- C10 (amended): `encode` is safe when `len(sub_operands) ≥ operand_count()`
*and* every range lies within the 128-bit word: every `OPERAND` range's
operand index is then a valid index into `sub_operands`, the `modifiers` list
is read only behind the explicit `modifier_i < len(modifiers)` bounds check
(any `modifiers` length is accepted), and `encode` reaches its return without
any out-of-range access, for every flag set, operand-modifier map,
operand-flag map and scheduling arguments. -/
theorem claim_c10_encode_safe (er : EncodingRanges) (a : EncodeArgs) (k : Nat)
    (hcount : er.operand_count = some k)
    (hsubs : k ≤ a.sub_operands.length)
    (hbounds : ∀ r ∈ er.ranges, r.start + r.length ≤ 128) :
    (er.encode a).isSome := by
  refine encodeGo_isSome a er.ranges 0 (fun _ => 0) 0 hbounds ?_
  intro r hr ht
  obtain ⟨_, hall⟩ := operandCountGo_spec er.ranges 0 k hcount
  obtain ⟨i, hoi, hik⟩ := hall r hr ht
  exact ⟨i, hoi, lt_of_lt_of_le (Nat.lt_of_succ_le hik) hsubs⟩

/-- A range list whose single `CONSTANT` range extends past bit 128. -/
def c10Ranges : EncodingRanges :=
  ⟨[{ type := .CONSTANT, start := 125, length := 10, constant := some 1 }], 0⟩

/-- C10 (counterexample to the claim as stated): with
`len(sub_operands) = 0 ≥ operand_count() = 0` satisfied, `encode` still does
not reach its return for every range list: a `CONSTANT` range spanning
`[125, 135)` makes the bit primitive write outside the 16-byte result buffer
(a bounds violation, fatal per the spec), so the claim's "for every range
list" part is false. -/
theorem claim_c10_counterexample :
    c10Ranges.operand_count = some 0 ∧
    c10Ranges.encode ⟨[], [], [], [], [], 7, 15, false, 0, 0, 0⟩ = none := by
  decide

/-- Concrete instantiation of `claim_c10_encode_safe`. -/
theorem claim_c10_witness :
    (EncodingRanges.encode
      ⟨[{ type := .CONSTANT, start := 0, length := 4, constant := some 5 }], 0⟩
      ⟨[], [], [], [], [], 7, 15, false, 0, 0, 0⟩).isSome :=
  claim_c10_encode_safe _ _ 0 (by decide) (by decide) (by decide)

/-! ## C5: `analyse_modifiers`

`analyse_modifiers(original, mutated)` builds
`difference = Counter(mutated); difference.subtract(original)` and folds over
`difference.items()`.  A Python `Counter`/`dict` iterates in insertion order:
the keys of `Counter(mutated)` in first-occurrence order of `mutated`,
followed by the keys `subtract` adds from `original`, in first-occurrence
order — i.e. the first occurrences of `mutated ++ original`.  Each key is
paired with `mutated.count(key) - original.count(key)`. -/

/-- First-occurrence deduplication (the key order of a Python dict built by
inserting the elements of `l` in order). -/
def pyDedup : List String → List String
  | [] => []
  | a :: l => a :: (pyDedup l).filter (fun b => b ≠ a)

/-- The count of token `t` in the multiset difference `mutated − original`. -/
def diffCount (original mutated : List String) (t : String) : Int :=
  (mutated.count t : Int) - (original.count t : Int)

/-- `difference.items()` of `analyse_modifiers`: one `(token, count)` pair per
distinct token of `mutated ++ original`, in insertion order. -/
def diffItems (original mutated : List String) : List (String × Int) :=
  (pyDedup (mutated ++ original)).map (fun t => (t, diffCount original mutated t))

/-- The `for name, count in difference.items()` loop of `analyse_modifiers`,
with state `(effected, not_flag, flag_candidate)`. -/
def amGo : List (String × Int) → Bool → Bool → Option String → Bool × Option String
  | [], effected, _, flag_candidate => (effected, flag_candidate)
  | (name, count) :: rest, effected, not_flag, flag_candidate =>
    if count = 0 then amGo rest effected not_flag flag_candidate
    else if count ≤ 0 then amGo rest true true none
    else if count = 1 ∧ not_flag = false then
      match flag_candidate with
      | none => amGo rest true not_flag (some name)
      | some _ => amGo rest true true none
    else amGo rest true not_flag flag_candidate

/-- `analyse_modifiers` from the source. -/
def analyse_modifiers (original mutated : List String) : Bool × Option String :=
  amGo (diffItems original mutated) false false none

/-- Whether some processed item has a non-zero count. -/
def nzIn (L : List (String × Int)) : Bool :=
  L.any (fun p => p.2 ≠ 0)

/-- Whether some processed item has a negative count. -/
def negIn (L : List (String × Int)) : Bool :=
  L.any (fun p => p.2 < 0)

/-- The keys of the processed items whose count is exactly 1, in order. -/
def onesKeys (L : List (String × Int)) : List String :=
  (L.filter (fun p => p.2 = 1)).map Prod.fst

/-- The reference value of `flag_candidate` after processing `L`: defined iff
no negative count was seen and exactly one count-1 item occurred. -/
def refCand (L : List (String × Int)) : Option String :=
  if negIn L then none
  else
    match onesKeys L with
    | [t] => some t
    | _ => none

theorem nzIn_append (A B : List (String × Int)) : nzIn (A ++ B) = (nzIn A || nzIn B) :=
  List.any_append

theorem negIn_append (A B : List (String × Int)) : negIn (A ++ B) = (negIn A || negIn B) :=
  List.any_append

theorem onesKeys_append (A B : List (String × Int)) :
    onesKeys (A ++ B) = onesKeys A ++ onesKeys B := by
  simp [onesKeys, List.filter_append]

theorem nzIn_single (x : String × Int) : nzIn [x] = decide (x.2 ≠ 0) := by
  simp [nzIn]

theorem negIn_single (x : String × Int) : negIn [x] = decide (x.2 < 0) := by
  simp [negIn]

theorem onesKeys_single (x : String × Int) :
    onesKeys [x] = if x.2 = 1 then [x.1] else [] := by
  by_cases h : x.2 = 1 <;> simp [onesKeys, List.filter, h]

/-- Characterization of the `analyse_modifiers` loop: started from the state
reached after processing a prefix `P`, it ends in the state reached after
processing `P ++ L`. -/
theorem amGo_eq : ∀ (L P : List (String × Int)),
    amGo L (nzIn P) (negIn P || decide (2 ≤ (onesKeys P).length)) (refCand P) =
      (nzIn (P ++ L), refCand (P ++ L)) := by
  intro L
  induction L with
  | nil => intro P; simp [amGo]
  | cons x rest ih =>
    intro P
    obtain ⟨name, count⟩ := x
    have hP : P ++ (name, count) :: rest = (P ++ [(name, count)]) ++ rest := by
      simp
    rw [hP]
    simp only [amGo]
    by_cases h0 : count = 0
    · rw [if_pos h0]
      have h1 : nzIn (P ++ [(name, count)]) = nzIn P := by
        simp [nzIn_append, nzIn_single, h0]
      have h2 : negIn (P ++ [(name, count)]) = negIn P := by
        simp [negIn_append, negIn_single, h0]
      have h3 : onesKeys (P ++ [(name, count)]) = onesKeys P := by
        simp [onesKeys_append, onesKeys_single, h0]
      have h4 : refCand (P ++ [(name, count)]) = refCand P := by
        simp [refCand, h2, h3]
      rw [← h1, ← h2, ← h3, ← h4]
      exact ih _
    · rw [if_neg h0]
      by_cases hneg : count ≤ 0
      · rw [if_pos hneg]
        have hlt : count < 0 := lt_of_le_of_ne hneg h0
        have h1 : nzIn (P ++ [(name, count)]) = true := by
          simp [nzIn_append, nzIn_single, h0]
        have h2 : negIn (P ++ [(name, count)]) = true := by
          simp [negIn_append, negIn_single, hlt]
        have h3 : onesKeys (P ++ [(name, count)]) = onesKeys P := by
          have : ¬count = 1 := by omega
          simp [onesKeys_append, onesKeys_single, this]
        have h4 : refCand (P ++ [(name, count)]) = none := by
          simp [refCand, h2]
        have := ih (P ++ [(name, count)])
        rw [h1, h2, h4] at this
        simpa using this
      · rw [if_neg hneg]
        have hpos : 0 < count := by omega
        have h1 : nzIn (P ++ [(name, count)]) = true := by
          simp [nzIn_append, nzIn_single, h0]
        have h2 : negIn (P ++ [(name, count)]) = negIn P := by
          have : ¬count < 0 := by omega
          simp [negIn_append, negIn_single, this]
        by_cases hone : count = 1
        · -- a `+1` item
          by_cases hnf : (negIn P || decide (2 ≤ (onesKeys P).length)) = false
          · rw [if_pos ⟨hone, hnf⟩]
            have hnegP : negIn P = false := by
              rcases Bool.or_eq_false_iff.mp hnf with ⟨h, _⟩
              exact h
            have hlen : (onesKeys P).length ≤ 1 := by
              rcases Bool.or_eq_false_iff.mp hnf with ⟨_, h⟩
              have := of_decide_eq_false h
              omega
            have h3 : onesKeys (P ++ [(name, count)]) = onesKeys P ++ [name] := by
              simp [onesKeys_append, onesKeys_single, hone]
            cases hcand : refCand P with
            | none =>
              -- `flag_candidate is None`: no count-1 item seen yet
              have hones : onesKeys P = [] := by
                by_contra hne
                cases hOP : onesKeys P with
                | nil => exact hne hOP
                | cons a tl =>
                  cases tl with
                  | nil => simp [refCand, hnegP, hOP] at hcand
                  | cons b tl' => rw [hOP] at hlen; simp at hlen
              have h4 : refCand (P ++ [(name, count)]) = some name := by
                simp [refCand, h2, hnegP, h3, hones]
              have hnf' : (negIn (P ++ [(name, count)]) ||
                  decide (2 ≤ (onesKeys (P ++ [(name, count)])).length)) = false := by
                simp [h2, hnegP, h3, hones]
              have := ih (P ++ [(name, count)])
              rw [h1, hnf', h4] at this
              rw [hnf]
              simpa using this
            | some d =>
              -- a second `+1` item: demote the candidate
              have hones : onesKeys P = [d] := by
                by_cases hnegP' : negIn P = true
                · simp [refCand, hnegP'] at hcand
                · cases hOP : onesKeys P with
                  | nil => simp [refCand, hnegP, hOP] at hcand
                  | cons a tl =>
                    cases tl with
                    | nil =>
                      simp [refCand, hnegP, hOP] at hcand
                      rw [hcand]
                    | cons b tl' => rw [hOP] at hlen; simp at hlen
              have h3' : onesKeys (P ++ [(name, count)]) = [d, name] := by
                rw [h3, hones]
                rfl
              have h4 : refCand (P ++ [(name, count)]) = none := by
                simp [refCand, h2, hnegP, h3']
              have hnf' : (negIn (P ++ [(name, count)]) ||
                  decide (2 ≤ (onesKeys (P ++ [(name, count)])).length)) = true := by
                simp [h3']
              have := ih (P ++ [(name, count)])
              rw [h1, hnf', h4] at this
              simpa using this
          · rw [if_neg (by simp [hnf])]
            -- `not_flag` already true: state unchanged apart from `effected`
            have hnf' : (negIn P || decide (2 ≤ (onesKeys P).length)) = true := by
              revert hnf
              cases negIn P || decide (2 ≤ (onesKeys P).length) <;> simp
            have h3 : onesKeys (P ++ [(name, count)]) = onesKeys P ++ [name] := by
              simp [onesKeys_append, onesKeys_single, hone]
            have hcand : refCand P = none := by
              rcases Bool.or_eq_true_iff.mp hnf' with h | h
              · simp [refCand, h]
              · have : 2 ≤ (onesKeys P).length := of_decide_eq_true h
                cases hOP : onesKeys P with
                | nil => rw [hOP] at this; simp at this
                | cons a tl =>
                  cases tl with
                  | nil => rw [hOP] at this; simp at this
                  | cons b tl' => simp [refCand, hOP]
            have h4 : refCand (P ++ [(name, count)]) = none := by
              rcases Bool.or_eq_true_iff.mp hnf' with h | h
              · simp [refCand, h2, h]
              · have hlen2 : 2 ≤ (onesKeys P).length := of_decide_eq_true h
                have : 3 ≤ (onesKeys (P ++ [(name, count)])).length := by
                  rw [h3]; simp; omega
                cases hOP : onesKeys (P ++ [(name, count)]) with
                | nil => rw [hOP] at this; simp at this
                | cons a tl =>
                  cases tl with
                  | nil => rw [hOP] at this; simp at this
                  | cons b tl' => simp [refCand, hOP]
            have hnf2 : (negIn (P ++ [(name, count)]) ||
                decide (2 ≤ (onesKeys (P ++ [(name, count)])).length)) = true := by
              rcases Bool.or_eq_true_iff.mp hnf' with h | h
              · simp [h2, h]
              · have hlen2 : 2 ≤ (onesKeys P).length := of_decide_eq_true h
                rw [h3]
                simp
                right
                omega
            have := ih (P ++ [(name, count)])
            rw [h1, hnf2, h4] at this
            rw [hnf', hcand]
            simpa using this
        · -- `count ≥ 2`: only `effected` changes
          rw [if_neg (by simp [hone])]
          have h3 : onesKeys (P ++ [(name, count)]) = onesKeys P := by
            simp [onesKeys_append, onesKeys_single, hone]
          have h4 : refCand (P ++ [(name, count)]) = refCand P := by
            simp [refCand, h2, h3]
          have := ih (P ++ [(name, count)])
          rw [h1, h2, h3, h4] at this
          simpa using this

theorem pyDedup_mem (a : String) : ∀ l : List String, a ∈ pyDedup l ↔ a ∈ l := by
  intro l
  induction l with
  | nil => simp [pyDedup]
  | cons b l ih =>
    simp only [pyDedup, List.mem_cons, List.mem_filter]
    by_cases hab : a = b
    · simp [hab]
    · simp [hab, ih]

theorem pyDedup_nodup : ∀ l : List String, (pyDedup l).Nodup := by
  intro l
  induction l with
  | nil => simp [pyDedup]
  | cons b l ih =>
    simp only [pyDedup]
    rw [List.nodup_cons]
    refine ⟨?_, List.Nodup.filter _ ih⟩
    intro hmem
    rw [List.mem_filter] at hmem
    simp at hmem

theorem filter_eq_singleton_iff {p : String → Bool} :
    ∀ {l : List String}, l.Nodup → ∀ t,
      (l.filter p = [t] ↔ t ∈ l ∧ p t = true ∧ ∀ s ∈ l, p s = true → s = t) := by
  intro l
  induction l with
  | nil => intro _ t; simp
  | cons a rest ih =>
    intro hnd t
    rw [List.nodup_cons] at hnd
    obtain ⟨ha, hrest⟩ := hnd
    by_cases hpa : p a = true
    · rw [List.filter_cons_of_pos hpa]
      constructor
      · intro h
        rw [List.cons.injEq] at h
        obtain ⟨rfl, hnil⟩ := h
        refine ⟨List.mem_cons_self _ _, hpa, ?_⟩
        intro s hs hps
        rcases List.mem_cons.mp hs with rfl | hs
        · rfl
        · exfalso
          have : s ∈ rest.filter p := List.mem_filter.mpr ⟨hs, hps⟩
          rw [hnil] at this
          simp at this
      · rintro ⟨hmem, hpt, huniq⟩
        have hat : a = t := huniq a (List.mem_cons_self _ _) hpa
        subst hat
        rw [List.cons.injEq]
        refine ⟨rfl, ?_⟩
        rw [List.filter_eq_nil_iff]
        intro s hs hps
        have : s = a := huniq s (List.mem_cons_of_mem _ hs) hps
        subst this
        exact ha hs
    · rw [List.filter_cons_of_neg hpa]
      rw [ih hrest t]
      constructor
      · rintro ⟨hmem, hpt, huniq⟩
        refine ⟨List.mem_cons_of_mem _ hmem, hpt, ?_⟩
        intro s hs hps
        rcases List.mem_cons.mp hs with rfl | hs
        · exact absurd hps hpa
        · exact huniq s hs hps
      · rintro ⟨hmem, hpt, huniq⟩
        rcases List.mem_cons.mp hmem with rfl | hmem
        · exact absurd hpt hpa
        · exact ⟨hmem, hpt, fun s hs hps => huniq s (List.mem_cons_of_mem _ hs) hps⟩

theorem diffCount_eq_zero_of_not_mem {original mutated : List String} {t : String}
    (h : t ∉ mutated ++ original) : diffCount original mutated t = 0 := by
  rw [List.mem_append] at h
  push_neg at h
  simp [diffCount, List.count_eq_zero_of_not_mem h.1, List.count_eq_zero_of_not_mem h.2]

theorem any_map_gen {α β : Type} (f : α → β) (p : β → Bool) :
    ∀ l : List α, (l.map f).any p = l.any fun a => p (f a) := by
  intro l
  induction l with
  | nil => rfl
  | cons a l ih => simp [ih]

theorem onesKeys_map_pairs (d : String → Int) :
    ∀ l : List String,
      onesKeys (l.map fun t => (t, d t)) = l.filter fun t => decide (d t = 1) := by
  intro l
  induction l with
  | nil => rfl
  | cons a l ih =>
    simp only [List.map_cons, onesKeys, List.filter_cons] at ih ⊢
    by_cases h : d a = 1
    · simp [h, ih]
    · simp [h, ih]

theorem onesKeys_diffItems (original mutated : List String) :
    onesKeys (diffItems original mutated) =
      (pyDedup (mutated ++ original)).filter
        (fun t => diffCount original mutated t = 1) := by
  rw [diffItems]
  exact onesKeys_map_pairs _ _

theorem negIn_diffItems_eq_false_iff (original mutated : List String) :
    negIn (diffItems original mutated) = false ↔
      ∀ s ∈ mutated ++ original, 0 ≤ diffCount original mutated s := by
  rw [negIn, diffItems, any_map_gen, List.any_eq_false]
  constructor
  · intro h s hs
    have := h s ((pyDedup_mem s _).mpr hs)
    simp at this
    omega
  · intro h p hp
    have hm := (pyDedup_mem p _).mp hp
    have := h p hm
    simp
    omega

theorem nzIn_diffItems_iff (original mutated : List String) :
    nzIn (diffItems original mutated) = true ↔
      ∃ t ∈ mutated ++ original, diffCount original mutated t ≠ 0 := by
  rw [nzIn, diffItems, any_map_gen, List.any_eq_true]
  constructor
  · rintro ⟨t, ht, hnz⟩
    refine ⟨t, (pyDedup_mem t _).mp ht, ?_⟩
    simpa using hnz
  · rintro ⟨t, ht, hnz⟩
    refine ⟨t, (pyDedup_mem t _).mpr ht, ?_⟩
    simpa using hnz

theorem singletonMatch_eq_some {L : List String} {t : String} :
    (match L with | [x] => some x | _ => none) = some t ↔ L = [t] := by
  cases L with
  | nil => simp
  | cons a tl => cases tl <;> simp

/-- C5: `analyse_modifiers(original, mutated)` returns `(effected,
flag_candidate)` where `effected` is true iff the multiset difference
`mutated − original` has some token with non-zero count, and `flag_candidate`
is `some t` iff `t` is the unique token with difference count +1 and no token
has a negative difference count; otherwise `flag_candidate` is `None`.
(Quantifiers over tokens are bounded by `mutated ++ original`; tokens outside
it have difference count 0.) -/
theorem claim_c5_analyse_modifiers (original mutated : List String) :
    ((analyse_modifiers original mutated).1 = true ↔
      ∃ t ∈ mutated ++ original, diffCount original mutated t ≠ 0) ∧
    ∀ t, (analyse_modifiers original mutated).2 = some t ↔
      (diffCount original mutated t = 1 ∧
       (∀ s ∈ mutated ++ original, 0 ≤ diffCount original mutated s) ∧
       (∀ s ∈ mutated ++ original, diffCount original mutated s = 1 → s = t)) := by
  have hrun : analyse_modifiers original mutated =
      (nzIn (diffItems original mutated), refCand (diffItems original mutated)) := by
    have := amGo_eq (diffItems original mutated) []
    simpa [analyse_modifiers, nzIn, negIn, onesKeys, refCand] using this
  rw [hrun]
  refine ⟨nzIn_diffItems_iff original mutated, ?_⟩
  intro t
  show refCand (diffItems original mutated) = some t ↔ _
  rw [refCand]
  by_cases hneg : negIn (diffItems original mutated) = true
  · rw [if_pos hneg]
    constructor
    · intro h; cases h
    · rintro ⟨_, hall, _⟩
      exfalso
      rw [← negIn_diffItems_eq_false_iff] at hall
      rw [hall] at hneg
      cases hneg
  · rw [if_neg hneg]
    have hnegf : negIn (diffItems original mutated) = false :=
      Bool.not_eq_true _ ▸ Bool.eq_false_iff.mpr hneg
    rw [singletonMatch_eq_some, onesKeys_diffItems]
    rw [filter_eq_singleton_iff (pyDedup_nodup _) t]
    constructor
    · rintro ⟨hmem, hone, huniq⟩
      refine ⟨by simpa using hone, (negIn_diffItems_eq_false_iff _ _).mp hnegf, ?_⟩
      intro s hs hone'
      exact huniq s ((pyDedup_mem s _).mpr hs) (by simpa using hone')
    · rintro ⟨hone, hall, huniq⟩
      have htmem : t ∈ mutated ++ original := by
        by_contra hnm
        rw [diffCount_eq_zero_of_not_mem hnm] at hone
        cases hone
      refine ⟨(pyDedup_mem t _).mpr htmem, by simpa using hone, ?_⟩
      intro s hs hone'
      exact huniq s ((pyDedup_mem s _).mp hs) (by simpa using hone')

/-- Concrete instantiation of `claim_c5_analyse_modifiers`. -/
theorem claim_c5_witness : (analyse_modifiers ["A"] ["A", "B"]).2 = some "B" :=
  ((claim_c5_analyse_modifiers ["A"] ["A", "B"]).2 "B").mpr (by decide)

/-! ## `InstructionMutationSet` state and `compute_encoding_ranges` -/

/-- Modelled from the spec: the shape of a flat (leaf) operand of the seed
parse, as far as the analysis passes inspect it (§3, §6) — the `parser`
module is external to this repository snapshot.  `analysis_operand_fix` only
distinguishes integer immediates (`isinstance(oper, parser.IntIMMOperand)`),
predicate registers (`RegOperand` with `reg_type == 'P'`), and everything
else. -/
inductive Oper where
  | intImm
  | predReg
  | other
deriving DecidableEq

/-- The mutable state of an `InstructionMutationSet` that the embedded
operations read and write.  Bit positions are `ℤ` (Python keeps transient
negative positions as ordinary keys/elements); maps are insertion-ordered
association lists.  Fields never read by the embedded operations
(`operand_type_bits`, `opcode_bits`, the raw mutations, the `inverse` flag)
are omitted. -/
structure MutationSetState where
  inst : Nat
  key : String
  parsed_operands : List Oper
  operand_value_bits : List Int
  operand_modifier_bits : List Int
  operand_modifier_bit_flag : List (Int × String)
  instruction_modifier_bit_flag : List (Int × String)
  bit_to_operand : List (Int × Nat)
  bit_to_shift : List (Int × Nat)
  bit_to_offset : List (Int × Int)
  predicate_bits : List Int
  modifier_bits : List Int
  modifier_groups : List (Int × Nat)
deriving DecidableEq

/-- Python `set.add`: insert the element if it is not already present.  (All
bit sets are built exclusively through this operation, so they are
duplicate-free; the source only ever iterates a bit set after `sorted(...)`,
so the list order is otherwise immaterial.) -/
def pySetAdd (l : List Int) (x : Int) : List Int :=
  if x ∈ l then l else l ++ [x]

/-- Insertion of an integer into a sorted list (ascending). -/
def insertSorted (x : Int) : List Int → List Int
  | [] => [x]
  | y :: ys => if x ≤ y then x :: y :: ys else y :: insertSorted x ys

/-- `sorted(list(s))`: ascending insertion sort (structural, so that concrete
instances evaluate inside the kernel). -/
def sortInts (l : List Int) : List Int :=
  l.foldr insertSorted []

/-- `reset_modifier_groups` from the source. -/
def reset_modifier_groups (s : MutationSetState) : MutationSetState :=
  { s with modifier_groups := [] }

/-- The running maximum of the values of a group map:
`max([0] + list(self.modifier_groups.values()))`. -/
def maxGroupValue (groups : List (Int × Nat)) : Nat :=
  groups.foldl (fun m p => max m p.2) 0

/-- Step 1 of `canonicalize_modifier_groups`: walk the sorted modifier bits,
assigning a fresh group id to each maximal run of contiguous group-less bits.
`prev` is the previous list element (`bits[i-1]`, `none` at `i = 0`). -/
def canonStep1 : List Int → Option Int → Bool → Nat → List (Int × Nat) → List (Int × Nat)
  | [], _, _, _, groups => groups
  | bit :: rest, prev, fill_mode, fill_id, groups =>
    if (pyGet? groups bit).isSome then
      canonStep1 rest (some bit) fill_mode fill_id groups
    else
      let discont : Bool := match prev with
        | some p => decide (p ≠ bit - 1)
        | none => false
      let fm := fill_mode && !discont
      if fm then
        canonStep1 rest (some bit) true fill_id (pySet groups bit fill_id)
      else
        let fid := maxGroupValue groups + 1
        canonStep1 rest (some bit) true fid (pySet groups bit fid)

/-- Step 2 of `canonicalize_modifier_groups`: renumber group ids with fresh
sequential numbers (from 1) in sorted-bit traversal order.  (After step 1
every modifier bit has a group; Python would raise `KeyError` otherwise, so
the `getD 0` default is never taken on states reachable in the source.) -/
def canonStep2 : List Int → Nat → List (Nat × Nat) → List (Int × Nat) → List (Int × Nat)
  | [], _, _, groups => groups
  | bit :: rest, max_num, num_map, groups =>
    let gid := (pyGet? groups bit).getD 0
    match pyGet? num_map gid with
    | some v => canonStep2 rest max_num num_map (pySet groups bit v)
    | none =>
      canonStep2 rest (max_num + 1) (pySet num_map gid (max_num + 1))
        (pySet groups bit (max_num + 1))

/-- `canonicalize_modifier_groups` from the source. -/
def canonicalize_modifier_groups (s : MutationSetState) : MutationSetState :=
  let bits := sortInts s.modifier_bits
  let g1 := canonStep1 bits none false 0 s.modifier_groups
  let g2 := canonStep2 bits 0 [] g1
  { s with modifier_groups := g2 }

/-- One entry of the range-construction loop's output decision: either a
single-bit range pushed immediately (the two `continue` branches for flags),
or a fresh single-bit range subject to the extend-or-push rule. -/
inductive StepAction where
  | emit (r : EncodingRange)
  | fresh (r : EncodingRange)

/-- The fixed control-code layout of `compute_encoding_ranges`. -/
def controlCodeRanges : List (EncodingRangeType × Nat) :=
  [(.STALL_CYCLES, 4), (.YIELD_FLAG, 1), (.READ_BARRIER, 3),
   (.WRITE_BARRIER, 3), (.BARRIER_MASK, 6), (.REUSE_MASK, 4)]

/-- The scheduling-range scan of `compute_encoding_ranges`: starting at
`offset = 13*8 + 1`, find the control-code span containing bit `i` whose bits
in the seed are all zero. -/
def findControlGo (inst : Nat) (i : Nat) :
    List (EncodingRangeType × Nat) → Nat → Option EncodingRange
  | [], _ => none
  | (rtype, length) :: rest, off =>
    if off ≤ i ∧ i < off + length ∧ get_bit_range inst off (off + length) = 0 then
      some { type := rtype, start := i, length := 1 }
    else findControlGo inst i rest (off + length)

/-- The per-bit classification cascade of `compute_encoding_ranges` (the body
of the `for i in range(0, 8 * 16)` loop up to the extend-or-push decision).
`bit_to_operand[i]` and `modifier_groups[i]` are embedded with a `getD 0`
default; on the states the class constructs they are always present (Python
would raise `KeyError` otherwise). -/
def rcClassify (s : MutationSetState) (i : Nat) : StepAction :=
  if (i : Int) ∈ s.modifier_bits then
    match pyGet? s.instruction_modifier_bit_flag (i : Int) with
    | some nm => .emit { type := .FLAG, start := i, length := 1, name := some nm }
    | none =>
      .fresh { type := .MODIFIER, start := i, length := 1,
               group_id := some ((pyGet? s.modifier_groups (i : Int)).getD 0) }
  else if (i : Int) ∈ s.predicate_bits then
    .fresh { type := .PREDICATE, start := i, length := 1 }
  else if (i : Int) ∈ s.operand_value_bits then
    .fresh { type := .OPERAND, start := i, length := 1,
             operand_index := some ((pyGet? s.bit_to_operand (i : Int)).getD 0) }
  else if (i : Int) ∈ s.operand_modifier_bits then
    let operand_index := (pyGet? s.bit_to_operand (i : Int)).getD 0
    match pyGet? s.operand_modifier_bit_flag (i : Int) with
    | some nm =>
      .emit { type := .OPERAND_FLAG, start := i, length := 1,
              operand_index := some operand_index, name := some nm }
    | none =>
      .fresh { type := .OPERAND_MODIFIER, start := i, length := 1,
               operand_index := some operand_index }
  else
    match findControlGo s.inst i controlCodeRanges (13 * 8 + 1) with
    | some r => .fresh r
    | none => .fresh { type := .CONSTANT, start := i, length := 1, constant := some 0 }

/-- The extend-or-push condition of `compute_encoding_ranges`: same type and
operand index, no `CONSTANT` extension across bit `8*8 = 64`, and matching
group id when the new range carries one. -/
def extendCond (cur nr : EncodingRange) (i : Nat) : Bool :=
  nr.type = cur.type ∧ nr.operand_index = cur.operand_index ∧
    (nr.type ≠ EncodingRangeType.CONSTANT ∨ i ≠ 8 * 8) ∧
    (nr.group_id = none ∨ nr.group_id = cur.group_id)

/-- First trailing update of the loop body: record a pending `shift` at bit
`i` on the current range if it has none
(`if current_range.shift is None and i in self.bit_to_shift`). -/
def updShift (s : MutationSetState) (i : Nat) (c : EncodingRange) : EncodingRange :=
  if c.shift = none then
    match pyGet? s.bit_to_shift (i : Int) with
    | some v => { c with shift := some v }
    | none => c
  else c

/-- Second trailing update of the loop body: record a pending `offset` at bit
`i` on the current range if it has none. -/
def updOffset (s : MutationSetState) (i : Nat) (c : EncodingRange) : EncodingRange :=
  if c.offset = none then
    match pyGet? s.bit_to_offset (i : Int) with
    | some v => { c with offset := some v }
    | none => c
  else c

/-- Third trailing update: accumulate the seed's bit `i` into a `CONSTANT`
range's `constant` (which is always `Some` for loop-built constants, hence the
`getD 0`): `current_range.constant |= ((inst[i // 8] >> (i % 8)) & 1) <<
(current_range.length - 1)`. -/
def updConstant (s : MutationSetState) (i : Nat) (c : EncodingRange) : EncodingRange :=
  if c.type = EncodingRangeType.CONSTANT then
    { c with constant := some ((c.constant.getD 0) |||
        ((s.inst >>> i) % 2) <<< (c.length - 1)) }
  else c

/-- The three trailing updates of the loop body, applied in source order. -/
def applyUpdates (s : MutationSetState) (i : Nat) (c0 : EncodingRange) : EncodingRange :=
  updConstant s i (updOffset s i (updShift s i c0))

/-- One iteration of the range-construction loop, acting on the state
`(result, current_range)`. -/
def rcStep (s : MutationSetState) (st : List EncodingRange × Option EncodingRange)
    (i : Nat) : List EncodingRange × Option EncodingRange :=
  match rcClassify s i with
  | .emit r => (st.1 ++ st.2.toList ++ [r], none)
  | .fresh nr =>
    match st.2 with
    | some cur =>
      if extendCond cur nr i then
        (st.1, some (applyUpdates s i { cur with length := cur.length + 1 }))
      else
        (st.1 ++ [cur], some (applyUpdates s i nr))
    | none => (st.1, some (applyUpdates s i nr))

/-- `compute_encoding_ranges` from the source: canonicalize modifier groups,
run the loop over bits `0 .. 8*16`, and push the final current range.  (In
Python the group canonicalization persists on the mutation set; the embedded
passes each call this function once, so the persistence is immaterial
here.) -/
def compute_encoding_ranges (s : MutationSetState) : EncodingRanges :=
  let s' := canonicalize_modifier_groups s
  let st := (List.range (8 * 16)).foldl (rcStep s') ([], none)
  ⟨st.1 ++ st.2.toList, s.inst⟩

/-! ## The partition invariant of range construction (C2, C7) -/

/-- The ranges of `l` are contiguous starting at bit `a`: each range starts
where the previous one ends. -/
def chainFrom : Nat → List EncodingRange → Prop
  | _, [] => True
  | a, r :: rs => r.start = a ∧ chainFrom (a + r.length) rs

/-- Total number of bits covered by a range list. -/
def sumLen (l : List EncodingRange) : Nat :=
  (l.map (fun r => r.length)).sum

/-- A `CONSTANT` range does not span the bit-64 boundary. -/
def noConstSpan64 (r : EncodingRange) : Prop :=
  r.type = EncodingRangeType.CONSTANT → r.start + r.length ≤ 64 ∨ 64 ≤ r.start

/-- The partition invariant for a (partial) range list covering `[0, n)`. -/
def rcInvList (n : Nat) (L : List EncodingRange) : Prop :=
  chainFrom 0 L ∧ sumLen L = n ∧ (∀ r ∈ L, 1 ≤ r.length) ∧ (∀ r ∈ L, noConstSpan64 r)

/-- Loop invariant of `compute_encoding_ranges` after processing bits
`0 .. n-1`. -/
def rcInvariant (n : Nat) (st : List EncodingRange × Option EncodingRange) : Prop :=
  rcInvList n (st.1 ++ st.2.toList)

theorem sumLen_nil : sumLen [] = 0 := rfl

theorem sumLen_cons (r : EncodingRange) (l : List EncodingRange) :
    sumLen (r :: l) = r.length + sumLen l := by
  simp [sumLen]

theorem sumLen_append (A B : List EncodingRange) :
    sumLen (A ++ B) = sumLen A + sumLen B := by
  simp [sumLen]

theorem chainFrom_append_singleton :
    ∀ {a : Nat} {l : List EncodingRange} {r : EncodingRange},
      chainFrom a l → r.start = a + sumLen l → chainFrom a (l ++ [r]) := by
  intro a l
  induction l generalizing a with
  | nil =>
    intro r _ hr
    exact ⟨by simpa [sumLen] using hr, trivial⟩
  | cons x xs ih =>
    intro r hc hr
    obtain ⟨hx, hrest⟩ := hc
    refine ⟨hx, ih hrest ?_⟩
    rw [sumLen_cons] at hr
    omega

theorem chainFrom_last_end :
    ∀ {a : Nat} {l : List EncodingRange} {c : EncodingRange},
      chainFrom a (l ++ [c]) → c.start + c.length = a + sumLen (l ++ [c]) := by
  intro a l
  induction l generalizing a with
  | nil =>
    intro c hc
    obtain ⟨h, _⟩ := hc
    rw [h]
    simp [sumLen]
  | cons x xs ih =>
    intro c hc
    obtain ⟨hx, hrest⟩ := hc
    have := ih hrest
    simp only [sumLen_append, sumLen_cons, sumLen_nil] at this ⊢
    omega

theorem chainFrom_set_last :
    ∀ {a : Nat} {l : List EncodingRange} {c c' : EncodingRange},
      chainFrom a (l ++ [c]) → c'.start = c.start → chainFrom a (l ++ [c']) := by
  intro a l
  induction l generalizing a with
  | nil =>
    intro c c' hc hs
    obtain ⟨h, _⟩ := hc
    exact ⟨hs.trans h, trivial⟩
  | cons x xs ih =>
    intro c c' hc hs
    obtain ⟨hx, hrest⟩ := hc
    exact ⟨hx, ih hrest hs⟩

theorem chainFrom_mem_le :
    ∀ {a : Nat} {l : List EncodingRange} {r : EncodingRange},
      chainFrom a l → r ∈ l → r.start + r.length ≤ a + sumLen l := by
  intro a l
  induction l generalizing a with
  | nil => intro r _ hr; cases hr
  | cons x xs ih =>
    intro r hc hr
    obtain ⟨hx, hrest⟩ := hc
    rcases List.mem_cons.mp hr with rfl | hr
    · rw [hx, sumLen_cons]; omega
    · have := ih hrest hr
      rw [sumLen_cons]
      omega

theorem chainFrom_get :
    ∀ {a : Nat} {l : List EncodingRange}, chainFrom a l →
      ∀ j (r r' : EncodingRange), l.get? j = some r → l.get? (j + 1) = some r' →
        r'.start = r.start + r.length := by
  intro a l
  induction l generalizing a with
  | nil => intro _ j r r' h; cases h
  | cons x xs ih =>
    intro hc j r r' hj hj1
    obtain ⟨hx, hrest⟩ := hc
    cases j with
    | zero =>
      simp only [List.get?] at hj hj1
      injection hj with hj
      subst hj
      cases xs with
      | nil => cases hj1
      | cons y ys =>
        obtain ⟨hy, _⟩ := hrest
        simp only [List.get?] at hj1
        injection hj1 with hj1
        subst hj1
        rw [hy, hx]
    | succ j' =>
      simp only [List.get?] at hj hj1
      exact ih hrest j' r r' hj hj1

theorem findControlGo_fields {inst i : Nat} :
    ∀ {l : List (EncodingRangeType × Nat)} {off : Nat} {r : EncodingRange},
      (∀ p ∈ l, p.1 ≠ EncodingRangeType.CONSTANT) →
      findControlGo inst i l off = some r →
      r.start = i ∧ r.length = 1 ∧ r.type ≠ EncodingRangeType.CONSTANT := by
  intro l
  induction l with
  | nil => intro off r _ h; cases h
  | cons x rest ih =>
    intro off r hl h
    obtain ⟨rtype, length⟩ := x
    simp only [findControlGo] at h
    split at h
    · injection h with h
      subst h
      exact ⟨rfl, rfl, hl (rtype, length) (List.mem_cons_self _ _)⟩
    · exact ih (fun p hp => hl p (List.mem_cons_of_mem _ hp)) h

theorem rcClassify_emit {s : MutationSetState} {i : Nat} {r : EncodingRange}
    (h : rcClassify s i = .emit r) :
    r.start = i ∧ r.length = 1 ∧ r.type ≠ EncodingRangeType.CONSTANT := by
  unfold rcClassify at h
  by_cases h1 : (i : Int) ∈ s.modifier_bits
  · rw [if_pos h1] at h
    cases hfl : pyGet? s.instruction_modifier_bit_flag (i : Int) with
    | some nm =>
      rw [hfl] at h
      injection h with h
      subst h
      exact ⟨rfl, rfl, by simp⟩
    | none => rw [hfl] at h; cases h
  · rw [if_neg h1] at h
    by_cases h2 : (i : Int) ∈ s.predicate_bits
    · rw [if_pos h2] at h; cases h
    · rw [if_neg h2] at h
      by_cases h3 : (i : Int) ∈ s.operand_value_bits
      · rw [if_pos h3] at h; cases h
      · rw [if_neg h3] at h
        by_cases h4 : (i : Int) ∈ s.operand_modifier_bits
        · rw [if_pos h4] at h
          cases hfl : pyGet? s.operand_modifier_bit_flag (i : Int) with
          | some nm =>
            rw [hfl] at h
            injection h with h
            subst h
            exact ⟨rfl, rfl, by simp⟩
          | none => rw [hfl] at h; cases h
        · rw [if_neg h4] at h
          cases hfc : findControlGo s.inst i controlCodeRanges (13 * 8 + 1) with
          | some cr => rw [hfc] at h; cases h
          | none => rw [hfc] at h; cases h

theorem rcClassify_fresh {s : MutationSetState} {i : Nat} {nr : EncodingRange}
    (h : rcClassify s i = .fresh nr) :
    nr.start = i ∧ nr.length = 1 := by
  unfold rcClassify at h
  by_cases h1 : (i : Int) ∈ s.modifier_bits
  · rw [if_pos h1] at h
    cases hfl : pyGet? s.instruction_modifier_bit_flag (i : Int) with
    | some nm => rw [hfl] at h; cases h
    | none =>
      rw [hfl] at h
      injection h with h
      subst h
      exact ⟨rfl, rfl⟩
  · rw [if_neg h1] at h
    by_cases h2 : (i : Int) ∈ s.predicate_bits
    · rw [if_pos h2] at h
      injection h with h
      subst h
      exact ⟨rfl, rfl⟩
    · rw [if_neg h2] at h
      by_cases h3 : (i : Int) ∈ s.operand_value_bits
      · rw [if_pos h3] at h
        injection h with h
        subst h
        exact ⟨rfl, rfl⟩
      · rw [if_neg h3] at h
        by_cases h4 : (i : Int) ∈ s.operand_modifier_bits
        · rw [if_pos h4] at h
          cases hfl : pyGet? s.operand_modifier_bit_flag (i : Int) with
          | some nm => rw [hfl] at h; cases h
          | none =>
            rw [hfl] at h
            injection h with h
            subst h
            exact ⟨rfl, rfl⟩
        · rw [if_neg h4] at h
          cases hfc : findControlGo s.inst i controlCodeRanges (13 * 8 + 1) with
          | some cr =>
            rw [hfc] at h
            injection h with h
            subst h
            have := findControlGo_fields (by decide) hfc
            exact ⟨this.1, this.2.1⟩
          | none =>
            rw [hfc] at h
            injection h with h
            subst h
            exact ⟨rfl, rfl⟩

theorem updShift_fields (s : MutationSetState) (i : Nat) (c : EncodingRange) :
    (updShift s i c).start = c.start ∧ (updShift s i c).length = c.length ∧
    (updShift s i c).type = c.type := by
  unfold updShift
  split
  · split <;> exact ⟨rfl, rfl, rfl⟩
  · exact ⟨rfl, rfl, rfl⟩

theorem updOffset_fields (s : MutationSetState) (i : Nat) (c : EncodingRange) :
    (updOffset s i c).start = c.start ∧ (updOffset s i c).length = c.length ∧
    (updOffset s i c).type = c.type := by
  unfold updOffset
  split
  · split <;> exact ⟨rfl, rfl, rfl⟩
  · exact ⟨rfl, rfl, rfl⟩

theorem updConstant_fields (s : MutationSetState) (i : Nat) (c : EncodingRange) :
    (updConstant s i c).start = c.start ∧ (updConstant s i c).length = c.length ∧
    (updConstant s i c).type = c.type := by
  unfold updConstant
  split <;> exact ⟨rfl, rfl, rfl⟩

theorem applyUpdates_fields (s : MutationSetState) (i : Nat) (c : EncodingRange) :
    (applyUpdates s i c).start = c.start ∧ (applyUpdates s i c).length = c.length ∧
    (applyUpdates s i c).type = c.type := by
  unfold applyUpdates
  obtain ⟨s1, l1, t1⟩ := updShift_fields s i c
  obtain ⟨s2, l2, t2⟩ := updOffset_fields s i (updShift s i c)
  obtain ⟨s3, l3, t3⟩ := updConstant_fields s i (updOffset s i (updShift s i c))
  exact ⟨s3.trans (s2.trans s1), l3.trans (l2.trans l1), t3.trans (t2.trans t1)⟩

theorem rcInvList_congr {n : Nat} {L L' : List EncodingRange} (h : L = L') :
    rcInvList n L → rcInvList n L' :=
  h ▸ id

/-- Appending a fresh single-bit range at bit `n` preserves the invariant. -/
theorem rcInvList_push {n : Nat} {L : List EncodingRange} {r : EncodingRange}
    (h : rcInvList n L) (hrs : r.start = n) (hrl : r.length = 1)
    (hr64 : noConstSpan64 r) : rcInvList (n + 1) (L ++ [r]) := by
  obtain ⟨hchain, hsum, hlens, hc64⟩ := h
  refine ⟨chainFrom_append_singleton hchain (by omega), ?_, ?_, ?_⟩
  · rw [sumLen_append, sumLen_cons, sumLen_nil, hsum, hrl]
  · intro x hx
    rcases List.mem_append.mp hx with hx | hx
    · exact hlens x hx
    · rw [List.mem_singleton] at hx
      subst hx
      omega
  · intro x hx
    rcases List.mem_append.mp hx with hx | hx
    · exact hc64 x hx
    · rw [List.mem_singleton] at hx
      subst hx
      exact hr64

theorem rcStep_inv (s : MutationSetState) (n : Nat)
    (st : List EncodingRange × Option EncodingRange)
    (h : rcInvariant n st) : rcInvariant (n + 1) (rcStep s st n) := by
  obtain ⟨res, cur⟩ := st
  have hbase : rcInvList n (res ++ cur.toList) := h
  unfold rcInvariant
  unfold rcStep
  cases hcl : rcClassify s n with
  | emit r =>
    obtain ⟨hrs, hrl, hrt⟩ := rcClassify_emit hcl
    have hpush := rcInvList_push hbase hrs hrl (fun ht => absurd ht hrt)
    exact rcInvList_congr (by simp) hpush
  | fresh nr =>
    obtain ⟨hns, hnl⟩ := rcClassify_fresh hcl
    cases cur with
    | none =>
      have h' : rcInvList n (res ++ []) := hbase
      rw [List.append_nil] at h'
      show rcInvList (n + 1) (res ++ [applyUpdates s n nr])
      obtain ⟨hus, hul, _⟩ := applyUpdates_fields s n nr
      exact rcInvList_push h' (by omega) (by omega) (fun _ => by omega)
    | some c =>
      have h' : rcInvList n (res ++ [c]) := hbase
      obtain ⟨hchain, hsum, hlens, hc64⟩ := h'
      dsimp only
      by_cases hext : extendCond c nr n = true
      · rw [if_pos hext]
        show rcInvList (n + 1)
          (res ++ [applyUpdates s n { c with length := c.length + 1 }])
        obtain ⟨hus, hul, hut⟩ := applyUpdates_fields s n { c with length := c.length + 1 }
        simp only at hus hul hut
        have hcend : c.start + c.length = n := by
          have := chainFrom_last_end hchain
          omega
        rw [extendCond, decide_eq_true_eq] at hext
        obtain ⟨hty, hoi, hcc, hgrp⟩ := hext
        refine ⟨chainFrom_set_last hchain hus, ?_, ?_, ?_⟩
        · rw [sumLen_append, sumLen_cons, sumLen_nil] at hsum ⊢
          omega
        · intro x hx
          rcases List.mem_append.mp hx with hx | hx
          · exact hlens x (List.mem_append.mpr (Or.inl hx))
          · rw [List.mem_singleton] at hx
            subst hx
            omega
        · intro x hx
          rcases List.mem_append.mp hx with hx | hx
          · exact hc64 x (List.mem_append.mpr (Or.inl hx))
          · rw [List.mem_singleton] at hx
            subst hx
            intro hxc
            have hct : c.type = EncodingRangeType.CONSTANT := hut ▸ hxc
            have hc64c : c.start + c.length ≤ 64 ∨ 64 ≤ c.start :=
              hc64 c (List.mem_append.mpr (Or.inr (List.mem_singleton_self c))) hct
            have hn64 : n ≠ 64 := by
              rcases hcc with hcc | hcc
              · exact absurd (hty.trans hct) hcc
              · exact hcc
            rw [hus, hul]
            omega
      · rw [if_neg hext]
        show rcInvList (n + 1) ((res ++ [c]) ++ [applyUpdates s n nr])
        obtain ⟨hus, hul, _⟩ := applyUpdates_fields s n nr
        exact rcInvList_push ⟨hchain, hsum, hlens, hc64⟩ (by omega) (by omega)
          (fun _ => by omega)

theorem rcLoop_inv (s : MutationSetState) :
    ∀ n : Nat, rcInvariant n ((List.range n).foldl (rcStep s) ([], none)) := by
  intro n
  induction n with
  | zero => exact ⟨trivial, rfl, by simp, by simp⟩
  | succ n ih =>
    rw [List.range_succ, List.foldl_append]
    exact rcStep_inv s n _ ih

theorem compute_ranges_inv (s : MutationSetState) :
    rcInvList 128 (compute_encoding_ranges s).ranges :=
  rcLoop_inv (canonicalize_modifier_groups s) (8 * 16)

/-- C2: for every seed word and mutation-set state, the ranges returned by
`compute_encoding_ranges` partition bit positions `[0, 128)`: the first range
starts at bit 0, each subsequent range starts exactly where the previous one
ends (hence starts are strictly increasing, no overlaps, no gaps), every
range satisfies `start + length ≤ 128`, and the lengths sum to 128. -/
theorem claim_c2_ranges_partition (s : MutationSetState) :
    ((compute_encoding_ranges s).ranges.head?.map (fun r => r.start) = some 0) ∧
    sumLen (compute_encoding_ranges s).ranges = 128 ∧
    (∀ r ∈ (compute_encoding_ranges s).ranges, 1 ≤ r.length ∧ r.start + r.length ≤ 128) ∧
    (∀ j (r r' : EncodingRange), (compute_encoding_ranges s).ranges.get? j = some r →
      (compute_encoding_ranges s).ranges.get? (j + 1) = some r' →
      r'.start = r.start + r.length ∧ r.start < r'.start) := by
  obtain ⟨hchain, hsum, hlens, _⟩ := compute_ranges_inv s
  refine ⟨?_, hsum, ?_, ?_⟩
  · cases hL : (compute_encoding_ranges s).ranges with
    | nil => rw [hL] at hsum; rw [sumLen_nil] at hsum; cases hsum
    | cons r0 rest =>
      rw [hL] at hchain
      obtain ⟨h0, _⟩ := hchain
      simp [h0]
  · intro r hr
    refine ⟨hlens r hr, ?_⟩
    have := chainFrom_mem_le hchain hr
    omega
  · intro j r r' hj hj1
    have hadj := chainFrom_get hchain j r r' hj hj1
    have hrmem : r ∈ (compute_encoding_ranges s).ranges := List.get?_mem hj
    have := hlens r hrmem
    exact ⟨hadj, by omega⟩

/-- A made-up but reachable-shaped mutation-set state used to instantiate the
partition theorem on concrete data (all classifier sets empty, zero seed). -/
def c2Demo : MutationSetState :=
  { inst := 0, key := "", parsed_operands := [],
    operand_value_bits := [], operand_modifier_bits := [],
    operand_modifier_bit_flag := [], instruction_modifier_bit_flag := [],
    bit_to_operand := [], bit_to_shift := [], bit_to_offset := [],
    predicate_bits := [], modifier_bits := [], modifier_groups := [] }

/-- Concrete instantiation of `claim_c2_ranges_partition`. -/
theorem claim_c2_witness : sumLen (compute_encoding_ranges c2Demo).ranges = 128 :=
  (claim_c2_ranges_partition c2Demo).2.1

/-- A mutation-set state whose modifier bits `{62, 63, 64, 65}` form a single
group spanning the bit-64 boundary. -/
def c7Demo : MutationSetState :=
  { inst := 0, key := "", parsed_operands := [],
    operand_value_bits := [], operand_modifier_bits := [],
    operand_modifier_bit_flag := [], instruction_modifier_bit_flag := [],
    bit_to_operand := [], bit_to_shift := [], bit_to_offset := [],
    predicate_bits := [], modifier_bits := [62, 63, 64, 65], modifier_groups := [] }

set_option maxRecDepth 8000 in
/-- C7: in the output of `compute_encoding_ranges`, no `CONSTANT` range
contains both bit 63 and bit 64 (constant runs are forcibly broken at bit 64),
while a `MODIFIER` range whose bits continue across bit 64 is not broken
there: the state `c7Demo` yields a single `MODIFIER` range containing both
bits 63 and 64. -/
theorem claim_c7_byte64_boundary :
    (∀ (s : MutationSetState) (r : EncodingRange),
      r ∈ (compute_encoding_ranges s).ranges → r.type = EncodingRangeType.CONSTANT →
      ¬(r.start ≤ 63 ∧ 65 ≤ r.start + r.length)) ∧
    (∃ r ∈ (compute_encoding_ranges c7Demo).ranges,
      r.type = EncodingRangeType.MODIFIER ∧ r.start ≤ 63 ∧ 65 ≤ r.start + r.length) := by
  constructor
  · intro s r hr ht
    obtain ⟨_, _, _, hc64⟩ := compute_ranges_inv s
    have := hc64 r hr ht
    omega
  · decide

/-- The first constant range of `compute_encoding_ranges c7Demo`. -/
def c7ConstRange : EncodingRange :=
  { type := .CONSTANT, start := 0, length := 62, constant := some 0 }

set_option maxRecDepth 8000 in
/-- Concrete instantiation of the universal part of
`claim_c7_byte64_boundary`, at the first constant range of `c7Demo`. -/
theorem claim_c7_witness :
    ¬(c7ConstRange.start ≤ 63 ∧ 65 ≤ c7ConstRange.start + c7ConstRange.length) :=
  claim_c7_byte64_boundary.1 c7Demo c7ConstRange (by decide) (by decide)

/-! ## C3: the modifier-coalescing pass and the pipeline -/

/-- The inner bit-absorption loop of `analysis_modifier_coalescing`:
`for i in range(rng.start, rng.start + rng.length): mset.modifier_bits.add(i)`. -/
def insertRangeBitsList (mb : List Int) (start len : Nat) : List Int :=
  (List.range len).foldl (fun mb2 k => pySetAdd mb2 ((start + k : Nat) : Int)) mb

def insertRangeBits (s : MutationSetState) (start len : Nat) : MutationSetState :=
  { s with modifier_bits := insertRangeBitsList s.modifier_bits start len }

/-- One iteration of the `for i, rng in enumerate(ranges.ranges[1:])` loop of
`analysis_modifier_coalescing`: `rng = ranges[i+1]` is a candidate `CONSTANT`
gap of at most 2 bits between the `MODIFIER` ranges `ranges[i]` and
`ranges[i+2]`. -/
def coalesceStep (ranges : List EncodingRange) (st : MutationSetState × Bool)
    (i : Nat) : MutationSetState × Bool :=
  match ranges.get? (i + 1) with
  | none => st
  | some rng =>
    if rng.length > 2 then st
    else
      match ranges.get? i with
      | none => st
      | some prev =>
        if prev.type ≠ EncodingRangeType.MODIFIER ∨
            rng.type ≠ EncodingRangeType.CONSTANT then st
        else
          match ranges.get? (i + 2) with
          | none => st
          | some nxt =>
            if nxt.type ≠ EncodingRangeType.MODIFIER then st
            else
              (insertRangeBits st.1 rng.start rng.length,
                st.2 || decide (0 < rng.length))

/-- `analysis_modifier_coalescing` from the source (the `disassembler`
argument is unused there). -/
def analysis_modifier_coalescing (s : MutationSetState) : MutationSetState × Bool :=
  let ranges := (compute_encoding_ranges s).ranges
  let st := (List.range (ranges.length - 1)).foldl (coalesceStep ranges) (s, false)
  if st.2 then (reset_modifier_groups st.1, st.2) else st

/-- The analysis passes of the source, named. -/
inductive RefinementPass where
  | disambiguateFlags
  | disambiguateOperandFlags
  | operandFix
  | extendModifiers
  | modifierSplitting
  | predicateFix
  | modifierCoalescing
deriving DecidableEq

/-- The refinement passes `instruction_analysis_pipeline` invokes between
mutation-set construction and final range construction, in source order
(instruction_solver.py lines 1562–1567).  The call
`analysis_modifier_coalescing(disassembler, mutation_set)` at line 1566 is
commented out. -/
def pipelineRefinementPasses : List RefinementPass :=
  [.disambiguateFlags, .disambiguateOperandFlags, .operandFix,
   .extendModifiers, .modifierSplitting]

theorem pySetAdd_mono {l : List Int} {x y : Int} (h : x ∈ l) : x ∈ pySetAdd l y := by
  unfold pySetAdd
  split
  · exact h
  · exact List.mem_append.mpr (Or.inl h)

theorem foldl_pySetAdd_mono (f : Nat → Int) :
    ∀ (l : List Nat) (mb : List Int) (x : Int), x ∈ mb →
      x ∈ l.foldl (fun mb k => pySetAdd mb (f k)) mb := by
  intro l
  induction l with
  | nil => intro mb x h; exact h
  | cons a rest ih => intro mb x h; exact ih _ x (pySetAdd_mono h)

theorem pySetAdd_mem_self (l : List Int) (x : Int) : x ∈ pySetAdd l x := by
  unfold pySetAdd
  split
  · assumption
  · exact List.mem_append.mpr (Or.inr (List.mem_singleton_self x))

theorem foldl_pySetAdd_mem (f : Nat → Int) :
    ∀ (l : List Nat) (mb : List Int) (k : Nat), k ∈ l →
      f k ∈ l.foldl (fun mb k => pySetAdd mb (f k)) mb := by
  intro l
  induction l with
  | nil => intro mb k h; cases h
  | cons a rest ih =>
    intro mb k h
    rcases List.mem_cons.mp h with rfl | h
    · exact foldl_pySetAdd_mono f rest _ _ (pySetAdd_mem_self mb (f k))
    · exact ih _ k h

theorem insertRangeBits_mem (s : MutationSetState) {start len b : Nat}
    (h1 : start ≤ b) (h2 : b < start + len) :
    (b : Int) ∈ (insertRangeBits s start len).modifier_bits := by
  show (b : Int) ∈ insertRangeBitsList s.modifier_bits start len
  unfold insertRangeBitsList
  have hmem : b - start ∈ List.range len := List.mem_range.mpr (by omega)
  have := foldl_pySetAdd_mem (fun k => ((start + k : Nat) : Int)) (List.range len)
    s.modifier_bits (b - start) hmem
  simpa [Nat.add_sub_cancel' h1] using this

theorem insertRangeBits_mono (s : MutationSetState) (start len : Nat) {x : Int}
    (h : x ∈ s.modifier_bits) :
    x ∈ (insertRangeBits s start len).modifier_bits := by
  show x ∈ insertRangeBitsList s.modifier_bits start len
  unfold insertRangeBitsList
  exact foldl_pySetAdd_mono (fun k => ((start + k : Nat) : Int)) (List.range len)
    s.modifier_bits x h

theorem coalesceStep_mono (ranges : List EncodingRange)
    (st : MutationSetState × Bool) (i : Nat) {x : Int}
    (h : x ∈ st.1.modifier_bits) :
    x ∈ (coalesceStep ranges st i).1.modifier_bits := by
  unfold coalesceStep
  cases hg1 : ranges.get? (i + 1) with
  | none => exact h
  | some rng =>
    dsimp only
    by_cases hl : rng.length > 2
    · rw [if_pos hl]; exact h
    · rw [if_neg hl]
      cases hg2 : ranges.get? i with
      | none => exact h
      | some prev =>
        dsimp only
        by_cases hc : prev.type ≠ EncodingRangeType.MODIFIER ∨
            rng.type ≠ EncodingRangeType.CONSTANT
        · rw [if_pos hc]; exact h
        · rw [if_neg hc]
          cases hg3 : ranges.get? (i + 2) with
          | none => exact h
          | some nxt =>
            dsimp only
            by_cases hm : nxt.type ≠ EncodingRangeType.MODIFIER
            · rw [if_pos hm]; exact h
            · rw [if_neg hm]
              exact insertRangeBits_mono st.1 rng.start rng.length h

theorem foldl_coalesce_mono (ranges : List EncodingRange) :
    ∀ (l : List Nat) (st : MutationSetState × Bool) (x : Int),
      x ∈ st.1.modifier_bits →
      x ∈ (l.foldl (coalesceStep ranges) st).1.modifier_bits := by
  intro l
  induction l with
  | nil => intro st x h; exact h
  | cons a rest ih =>
    intro st x h
    exact ih _ x (coalesceStep_mono ranges st a h)

/-- C3 counterexample to the claim as stated: `instruction_analysis_pipeline`
does not apply the coalescing refinement pass — the call is commented out in
the source. -/
theorem claim_c3_counterexample :
    RefinementPass.modifierCoalescing ∉ pipelineRefinementPasses := by
  decide

/-- C3 (amended): the pass `analysis_modifier_coalescing` itself, when
invoked on a mutation-set state, absorbs every short `CONSTANT` gap: whenever
two `MODIFIER` ranges of `compute_encoding_ranges s` are separated by a
`CONSTANT` range of at most 2 bits, every bit of that gap is added to the
state's modifier bit set.  The pipeline, however, never invokes this pass
(`claim_c3_counterexample`). -/
theorem claim_c3_coalescing_behavior (s : MutationSetState) (j : Nat)
    (r1 r2 r3 : EncodingRange)
    (h1 : (compute_encoding_ranges s).ranges.get? j = some r1)
    (h2 : (compute_encoding_ranges s).ranges.get? (j + 1) = some r2)
    (h3 : (compute_encoding_ranges s).ranges.get? (j + 2) = some r3)
    (ht1 : r1.type = EncodingRangeType.MODIFIER)
    (ht2 : r2.type = EncodingRangeType.CONSTANT)
    (hlen : r2.length ≤ 2)
    (ht3 : r3.type = EncodingRangeType.MODIFIER) :
    ∀ b : Nat, r2.start ≤ b → b < r2.start + r2.length →
      (b : Int) ∈ (analysis_modifier_coalescing s).1.modifier_bits := by
  intro b hb1 hb2
  have hmemstep : ∀ st : MutationSetState × Bool,
      (b : Int) ∈ (coalesceStep (compute_encoding_ranges s).ranges st j).1.modifier_bits := by
    intro st
    unfold coalesceStep
    rw [h1, h2, h3]
    dsimp only
    rw [if_neg (by omega)]
    rw [if_neg (by simp [ht1, ht2])]
    rw [if_neg (by simp [ht3])]
    exact insertRangeBits_mem _ hb1 hb2
  have hj : j ∈ List.range ((compute_encoding_ranges s).ranges.length - 1) := by
    have : j + 2 < (compute_encoding_ranges s).ranges.length := by
      by_contra hge
      rw [List.get?_eq_none.mpr (by omega)] at h3
      cases h3
    exact List.mem_range.mpr (by omega)
  obtain ⟨l1, l2, hsplit⟩ := List.append_of_mem hj
  have hfold : (b : Int) ∈
      ((List.range ((compute_encoding_ranges s).ranges.length - 1)).foldl
        (coalesceStep (compute_encoding_ranges s).ranges) (s, false)).1.modifier_bits := by
    rw [hsplit, List.foldl_append, List.foldl_cons]
    exact foldl_coalesce_mono _ l2 _ _ (hmemstep _)
  unfold analysis_modifier_coalescing
  dsimp only
  split
  · exact hfold
  · exact hfold

/-- A mutation-set state with two single-bit modifier groups (bits 13 and 16)
separated by the 2-bit constant gap `{14, 15}`. -/
def c3Demo : MutationSetState :=
  { inst := 0, key := "", parsed_operands := [],
    operand_value_bits := [], operand_modifier_bits := [],
    operand_modifier_bit_flag := [], instruction_modifier_bit_flag := [],
    bit_to_operand := [], bit_to_shift := [], bit_to_offset := [],
    predicate_bits := [], modifier_bits := [13, 16], modifier_groups := [] }

set_option maxRecDepth 8000 in
/-- Concrete instantiation of `claim_c3_coalescing_behavior`: on `c3Demo`
both gap bits 14 and 15 are absorbed into the modifier bit set. -/
theorem claim_c3_witness :
    (14 : Int) ∈ (analysis_modifier_coalescing c3Demo).1.modifier_bits ∧
    (15 : Int) ∈ (analysis_modifier_coalescing c3Demo).1.modifier_bits :=
  ⟨claim_c3_coalescing_behavior c3Demo 1
      { type := .MODIFIER, start := 13, length := 1, group_id := some 1 }
      { type := .CONSTANT, start := 14, length := 2, constant := some 0 }
      { type := .MODIFIER, start := 16, length := 1, group_id := some 2 }
      (by decide) (by decide) (by decide) (by decide) (by decide) (by decide)
      (by decide) 14 (by decide) (by decide),
    claim_c3_coalescing_behavior c3Demo 1
      { type := .MODIFIER, start := 13, length := 1, group_id := some 1 }
      { type := .CONSTANT, start := 14, length := 2, constant := some 0 }
      { type := .MODIFIER, start := 16, length := 1, group_id := some 2 }
      (by decide) (by decide) (by decide) (by decide) (by decide) (by decide)
      (by decide) 15 (by decide) (by decide)⟩

/-! ## C8: `analysis_disambiguate_flags` and idempotence -/

/-- The disassemble-and-parse oracle seen by the refinement passes: a pure
function of the probed word (spec §5, §6).  `none` models an empty
disassembly or a parse failure (the pass skips the probe in both cases);
`some (key, modifiers)` is the parsed instruction's key and modifier list. -/
def DisasmOracle : Type := Nat → Option (String × List String)

/-- Probe collection of `analysis_disambiguate_flags`: for each bit of the
flag map (in dict order), flip `(bit, bit+1)`, and flip `(bit, bit-1)` when
`bit-1` is not itself a flag bit.  `set_bit` can fault (`none`) on
out-of-range positions. -/
def dfProbes (s : MutationSetState) : Option (List (Nat × Int × Int)) :=
  s.instruction_modifier_bit_flag.foldl
    (fun acc p =>
      match acc with
      | none => none
      | some l =>
        let bit := p.1
        match set_bit s.inst bit with
        | none => none
        | some w0 =>
          match set_bit w0 (bit + 1) with
          | none => none
          | some w1 =>
            let l1 := l ++ [(w1, bit, bit + 1)]
            if (pyGet? s.instruction_modifier_bit_flag (bit - 1)).isSome then some l1
            else
              match set_bit w0 (bit - 1) with
              | none => none
              | some w2 => some (l1 ++ [(w2, bit, bit - 1)]))
    (some [])

/-- The state mutation of a demotion: add the adjacent bit to the modifier
set, delete the flag entry (and the adjacent one if present), and reset the
modifier groups. -/
def dfDemote (s : MutationSetState) (bit adj : Int) : MutationSetState :=
  reset_modifier_groups
    { s with
      modifier_bits := pySetAdd s.modifier_bits adj,
      instruction_modifier_bit_flag :=
        pyDel (pyDel s.instruction_modifier_bit_flag bit) adj }

/-- The probe-processing loop of `analysis_disambiguate_flags`: skip probes
whose flag bit was already eliminated, whose disassembly is
empty/unparseable, or whose key differs; demote when the flag name is absent
from the probe's modifiers. -/
def dfProcess (O : DisasmOracle) :
    List (Nat × Int × Int) → MutationSetState → Bool → MutationSetState × Bool
  | [], s, changed => (s, changed)
  | (w, bit, adj) :: rest, s, changed =>
    match pyGet? s.instruction_modifier_bit_flag bit with
    | none => dfProcess O rest s changed
    | some flag_name =>
      match O w with
      | none => dfProcess O rest s changed
      | some (k, mods) =>
        if k ≠ s.key then dfProcess O rest s changed
        else if flag_name ∈ mods then dfProcess O rest s changed
        else dfProcess O rest (dfDemote s bit adj) true

/-- `analysis_disambiguate_flags` from the source (returns whether anything
changed; `none` models a raised exception in probe construction). -/
def analysis_disambiguate_flags (O : DisasmOracle) (s : MutationSetState) :
    Option (MutationSetState × Bool) :=
  match dfProbes s with
  | none => none
  | some probes =>
    if probes.length = 0 then some (s, false)
    else some (dfProcess O probes s false)

theorem dfProcess_false (O : DisasmOracle) :
    ∀ (probes : List (Nat × Int × Int)) (s : MutationSetState) (changed : Bool)
      (s' : MutationSetState), dfProcess O probes s changed = (s', false) →
      s' = s ∧ changed = false := by
  intro probes
  induction probes with
  | nil =>
    intro s changed s' h
    injection h with h1 h2
    exact ⟨h1.symm, h2⟩
  | cons p rest ih =>
    intro s changed s' h
    obtain ⟨w, bit, adj⟩ := p
    simp only [dfProcess] at h
    cases hflag : pyGet? s.instruction_modifier_bit_flag bit with
    | none =>
      rw [hflag] at h
      exact ih s changed s' h
    | some flag_name =>
      rw [hflag] at h
      dsimp only at h
      cases hOw : O w with
      | none =>
        rw [hOw] at h
        exact ih s changed s' h
      | some km =>
        obtain ⟨k, mods⟩ := km
        rw [hOw] at h
        dsimp only at h
        by_cases hk : k ≠ s.key
        · rw [if_pos hk] at h
          exact ih s changed s' h
        · rw [if_neg hk] at h
          by_cases hm : flag_name ∈ mods
          · rw [if_pos hm] at h
            exact ih s changed s' h
          · rw [if_neg hm] at h
            obtain ⟨_, hcontra⟩ := ih _ true s' h
            cases hcontra

/-- C8 (amended): once `analysis_disambiguate_flags` reports no change
(returns `False`), its state is unchanged and immediately re-running it
reports no change again — `False` is a fixed point.  (A *changing* first run
can unlock new probes — a demoted neighbour re-enables the `(bit, bit-1)`
probe — so the claim's unconditional second-run idempotence fails; see the
counterexample.) -/
theorem claim_c8_fixed_point (O : DisasmOracle) (s s' : MutationSetState)
    (h : analysis_disambiguate_flags O s = some (s', false)) :
    s' = s ∧ analysis_disambiguate_flags O s' = some (s', false) := by
  unfold analysis_disambiguate_flags at h
  cases hp : dfProbes s with
  | none => rw [hp] at h; cases h
  | some probes =>
    rw [hp] at h
    dsimp only at h
    by_cases hlen : probes.length = 0
    · rw [if_pos hlen] at h
      injection h with h
      injection h with h1 h2
      subst h1
      refine ⟨rfl, ?_⟩
      unfold analysis_disambiguate_flags
      rw [hp]
      dsimp only
      rw [if_pos hlen]
    · rw [if_neg hlen] at h
      injection h with h
      obtain ⟨hss, _⟩ := dfProcess_false O probes s false s' h
      subst hss
      refine ⟨rfl, ?_⟩
      unfold analysis_disambiguate_flags
      rw [hp]
      dsimp only
      rw [if_neg hlen, h]

/-- A deterministic oracle under which flag-disambiguation is not idempotent:
`3145728 = 2^20 + 2^21`, `1572864 = 2^19 + 2^20`, `6291456 = 2^21 + 2^22`. -/
def c8Oracle : DisasmOracle := fun w =>
  if w = 3145728 then some ("K", ["A"])
  else if w = 1572864 then some ("K", [])
  else if w = 6291456 then some ("K", ["B"])
  else none

/-- A state with two adjacent flag bits 20 (`A`) and 21 (`B`). -/
def c8Demo : MutationSetState :=
  { inst := 0, key := "K", parsed_operands := [],
    operand_value_bits := [], operand_modifier_bits := [],
    operand_modifier_bit_flag := [],
    instruction_modifier_bit_flag := [(20, "A"), (21, "B")],
    bit_to_operand := [], bit_to_shift := [], bit_to_offset := [],
    predicate_bits := [], modifier_bits := [20, 21], modifier_groups := [] }

/-- C8 counterexample to the claim as stated: with the deterministic oracle
`c8Oracle`, both the first run and the *second consecutive* run of
`analysis_disambiguate_flags` on `c8Demo` return `True` (the first run
demotes bit 20, which re-enables the probe `(21, 20)` on the second run and
demotes bit 21), so the second run neither returns `False` nor leaves the
state unchanged. -/
theorem claim_c8_counterexample :
    (analysis_disambiguate_flags c8Oracle c8Demo).map (fun p => p.2) = some true ∧
    ((analysis_disambiguate_flags c8Oracle c8Demo).bind
      (fun p => analysis_disambiguate_flags c8Oracle p.1)).map (fun p => p.2) =
      some true := by
  decide

/-- A state on which the pass reports no change (no flag bits at all). -/
def c8Fixed : MutationSetState :=
  { inst := 0, key := "K", parsed_operands := [],
    operand_value_bits := [], operand_modifier_bits := [],
    operand_modifier_bit_flag := [], instruction_modifier_bit_flag := [],
    bit_to_operand := [], bit_to_shift := [], bit_to_offset := [],
    predicate_bits := [], modifier_bits := [], modifier_groups := [] }

/-- Concrete instantiation of `claim_c8_fixed_point`. -/
theorem claim_c8_witness :
    c8Fixed = c8Fixed ∧
    analysis_disambiguate_flags c8Oracle c8Fixed = some (c8Fixed, false) :=
  claim_c8_fixed_point c8Oracle c8Fixed c8Fixed (by decide)

/-! ## C4: `analysis_operand_fix` -/

/-- The oracle seen by `analysis_operand_fix`: maps a probed word to the
parsed instruction's flat operand values (`get_operand_value()` per flat
operand, `none` for a valueless operand).  Outer `none` models a parse
exception, which `disasm_value` does not catch, so it propagates out of the
pass (spec §7: fatal). -/
def OperandOracle : Type := Nat → Option (List (Option Int))

/-- `math.log2(diff)` followed by the integrality and `< 1` checks of
`analysis_operand_fix`, idealized to exact integer arithmetic: `some e` iff
`d = 2^e`.  `log2Fuel` is a structural-fuel base-2 logarithm so concrete
instances evaluate inside the kernel. -/
def log2Fuel : Nat → Nat → Nat
  | 0, _ => 0
  | fuel + 1, n => if 2 ≤ n then log2Fuel fuel (n / 2) + 1 else 0

/-- Floor base-2 logarithm (fuel-based; exact for every input since the
number of halvings of `n` is at most `n`). -/
def natLog2 (n : Nat) : Nat := log2Fuel n n

/-- `some e` iff `d = 2^e` with `d > 0` (the exact-power-of-two test). -/
def intLog2 (d : Int) : Option Nat :=
  if d ≤ 0 then none
  else if 2 ^ natLog2 d.toNat = d.toNat then some (natLog2 d.toNat) else none

/-- `disasm_value` from the source: write `value` into
`[rng.start - offset, rng.start + rng.length)` of the seed and decode.
Outer `none` models an exception (bit-primitive fault or parse failure);
`some none` is the `None, None` return for an out-of-range flat-operand index
(or a valueless operand); `some (some v)` is the decoded operand value. -/
def disasm_value (O : OperandOracle) (s : MutationSetState) (rng : EncodingRange)
    (value : Int) (offset : Nat) : Option (Option Int) :=
  match set_bit_range s.inst ((rng.start : Int) - offset) (rng.start + rng.length) value with
  | none => none
  | some code =>
    match O code with
    | none => none
    | some opers =>
      match rng.operand_index with
      | none => none
      | some idx =>
        if idx ≥ opers.length then some none
        else some (opers.getD idx none)

/-- The single-bit probe loop of `analysis_operand_fix` over the index list
`range(0, rng.length)`: probe `1 << i` at offset `missing`, collect the
residual `decoded - encoded`, record the shift and break when
`decoded = encoded`, set `failure` and break when the decoded value is
`None`.  Returns `(offsets, shift, failure, state)`. -/
def opProbeGo (O : OperandOracle) (rng : EncodingRange) (missing : Nat) :
    List Nat → MutationSetState → List Int →
    Option (List Int × Nat × Bool × MutationSetState)
  | [], s, offsets => some (offsets, 0, false, s)
  | i :: rest, s, offsets =>
    match disasm_value O s rng (2 ^ i) missing with
    | none => none
    | some none => some (offsets, 0, true, s)
    | some (some v) =>
      let offsets2 := offsets ++ [v - 2 ^ i]
      if v = 2 ^ i then
        some (offsets2, i, false,
          { s with bit_to_shift := pySet s.bit_to_shift (rng.start : Int) i })
      else opProbeGo O rng missing rest s offsets2

/-- One iteration of the extension loop:
`mset.operand_value_bits.add(rng.start - i)` and
`mset.bit_to_operand[rng.start - i] = rng.operand_index`. -/
def extendOne (s : MutationSetState) (b : Int) (idx : Nat) : MutationSetState :=
  { s with operand_value_bits := pySetAdd s.operand_value_bits b, bit_to_operand := pySet s.bit_to_operand b idx }

/-- The extension loop `for i in range(1, ext)` of `analysis_operand_fix`:
extend the operand range leftward, assigning each bit to operand `idx`. -/
def extendOperandBits (s : MutationSetState) (rng : EncodingRange) (idx : Nat)
    (ext : Nat) : MutationSetState :=
  (List.range' 1 (ext - 1)).foldl (fun s2 i => extendOne s2 ((rng.start : Int) - i) idx) s

/-- The tail of the `analysis_operand_fix` loop body after the probe loop:
the offset-recording condition
`len(offsets) >= 8 and offsets.count(offsets[-1]) >= len(offsets) // 2 and
offsets[-1] != 0`, the `failed to correct` skip, and the leftward extension
by `missing - shift` bits (where the offset branch re-derives the shift as
the index of the first residual equal to the recorded offset). -/
def operandFixFinish (s : MutationSetState) (rng : EncodingRange) (idx : Nat)
    (missing shift0 : Nat) (offsets : List Int) : MutationSetState :=
  match offsets.getLast? with
  | none => extendOperandBits s rng idx (missing - shift0 + 1)
  | some last =>
    if 8 ≤ offsets.length ∧ offsets.length / 2 ≤ offsets.count last ∧ last ≠ 0 then
      let s1 := { s with bit_to_offset := pySet s.bit_to_offset (rng.start : Int) last }
      let sh := (offsets.map (fun v => v - last)).indexOf 0
      let s2 := if sh ≠ 0 then { s1 with bit_to_shift := pySet s1.bit_to_shift (rng.start : Int) sh } else s1
      extendOperandBits s2 rng idx (missing - sh + 1)
    else if last ≠ 0 then s
    else extendOperandBits s rng idx (missing - shift0 + 1)

/-- The body of the `for rng in ranges._find(OPERAND)` loop of
`analysis_operand_fix` for one range, threading the `seen` set. -/
def operandFixRange (O : OperandOracle) (s : MutationSetState) (rng : EncodingRange)
    (seen : List Nat) : Option (MutationSetState × List Nat) :=
  match rng.operand_index with
  | none => none
  | some idx =>
    match s.parsed_operands.get? idx with
    | none => none
    | some oper =>
      if ¬(oper = Oper.intImm ∨ oper = Oper.predReg) then some (s, seen)
      else if (rng.length ≤ 2 ∧ ¬oper = Oper.predReg) ∨ idx ∈ seen then some (s, seen)
      else
        let seen2 := seen ++ [idx]
        match disasm_value O s rng 0 0 with
        | none => none
        | some val_zero =>
          match disasm_value O s rng 1 0 with
          | none => none
          | some val_one =>
            match val_zero, val_one with
            | some v0, some v1 =>
              let diff : Int := if oper = Oper.predReg then |v1 - v0| else v1 - v0
              if diff < 1 then some (s, seen2)
              else
                match intLog2 diff with
                | none => some (s, seen2)
                | some missing =>
                  if missing < 1 then some (s, seen2)
                  else if oper = Oper.predReg then
                    some (operandFixFinish s rng idx missing 0 [], seen2)
                  else
                    match opProbeGo O rng missing (List.range rng.length) s [] with
                    | none => none
                    | some (offsets, shift, failure, s2) =>
                      if failure then some (s2, seen2)
                      else some (operandFixFinish s2 rng idx missing shift offsets, seen2)
            | _, _ => some (s, seen2)

/-- The range loop of `analysis_operand_fix`. -/
def opFixGo (O : OperandOracle) :
    List EncodingRange → MutationSetState → List Nat → Option MutationSetState
  | [], s, _ => some s
  | rng :: rest, s, seen =>
    match operandFixRange O s rng seen with
    | none => none
    | some p => opFixGo O rest p.1 p.2

/-- `analysis_operand_fix` from the source: ranges are computed once up
front, then each probed `OPERAND` range is corrected. -/
def analysis_operand_fix (O : OperandOracle) (s : MutationSetState) :
    Option MutationSetState :=
  opFixGo O
    ((compute_encoding_ranges s).ranges.filter
      (fun r => r.type = EncodingRangeType.OPERAND)) s []

theorem pyGet?_set {κ ν : Type} [DecidableEq κ] :
    ∀ (d : List (κ × ν)) (k : κ) (v : ν) (t : κ),
      pyGet? (pySet d k v) t = if k = t then some v else pyGet? d t := by
  intro d
  induction d with
  | nil =>
    intro k v t
    by_cases ht : k = t <;> simp [pySet, pyGet?, ht]
  | cons p rest ih =>
    intro k v t
    obtain ⟨k', v'⟩ := p
    simp only [pySet]
    by_cases hk : k' = k
    · subst hk
      rw [if_pos rfl]
      by_cases ht : k' = t <;> simp [pyGet?, ht]
    · rw [if_neg hk]
      by_cases ht : k' = t
      · subst ht
        have : ¬k = k' := fun h => hk h.symm
        simp [pyGet?, this]
      · simp [pyGet?, ht, ih]

theorem extendOne_fields (s : MutationSetState) (b : Int) (idx : Nat) :
    (extendOne s b idx).bit_to_offset = s.bit_to_offset ∧
    (extendOne s b idx).operand_value_bits = pySetAdd s.operand_value_bits b ∧
    (extendOne s b idx).bit_to_operand = pySet s.bit_to_operand b idx :=
  ⟨rfl, rfl, rfl⟩

theorem foldl_extendOne_offset (start : Int) (idx : Nat) :
    ∀ (l : List Nat) (s : MutationSetState),
      ((l.foldl (fun s2 i => extendOne s2 (start - i) idx) s)).bit_to_offset =
        s.bit_to_offset := by
  intro l
  induction l with
  | nil => intro s; rfl
  | cons a rest ih => intro s; exact ih _

theorem foldl_extendOne_preserve (start : Int) (idx : Nat) :
    ∀ (l : List Nat) (s : MutationSetState) (b : Int),
      (b ∈ s.operand_value_bits →
        b ∈ (l.foldl (fun s2 i => extendOne s2 (start - i) idx) s).operand_value_bits) ∧
      (pyGet? s.bit_to_operand b = some idx →
        pyGet? (l.foldl (fun s2 i => extendOne s2 (start - i) idx) s).bit_to_operand b =
          some idx) := by
  intro l
  induction l with
  | nil => intro s b; exact ⟨id, id⟩
  | cons a rest ih =>
    intro s b
    constructor
    · intro hb
      exact (ih (extendOne s (start - a) idx) b).1 (pySetAdd_mono hb)
    · intro hb
      refine (ih (extendOne s (start - a) idx) b).2 ?_
      show pyGet? (pySet s.bit_to_operand (start - a) idx) b = some idx
      rw [pyGet?_set]
      by_cases h : start - a = b
      · rw [if_pos h]
      · rw [if_neg h]; exact hb

theorem foldl_extendOne_mem (start : Int) (idx : Nat) :
    ∀ (l : List Nat) (s : MutationSetState) (k : Nat), k ∈ l →
      (start - k) ∈ (l.foldl (fun s2 i => extendOne s2 (start - i) idx) s).operand_value_bits ∧
      pyGet? (l.foldl (fun s2 i => extendOne s2 (start - i) idx) s).bit_to_operand
        (start - k) = some idx := by
  intro l
  induction l with
  | nil => intro s k h; cases h
  | cons a rest ih =>
    intro s k h
    rcases List.mem_cons.mp h with rfl | h
    · constructor
      · refine (foldl_extendOne_preserve start idx rest _ _).1 ?_
        exact pySetAdd_mem_self _ _
      · refine (foldl_extendOne_preserve start idx rest _ _).2 ?_
        show pyGet? (pySet s.bit_to_operand (start - k) idx) (start - k) = some idx
        rw [pyGet?_set, if_pos rfl]
    · exact ih _ k h

theorem extendOperandBits_mem (s : MutationSetState) (rng : EncodingRange)
    (idx ext k : Nat) (h1 : 1 ≤ k) (h2 : k ≤ ext - 1) :
    ((rng.start : Int) - k) ∈ (extendOperandBits s rng idx ext).operand_value_bits ∧
    pyGet? (extendOperandBits s rng idx ext).bit_to_operand
      ((rng.start : Int) - k) = some idx := by
  unfold extendOperandBits
  refine foldl_extendOne_mem _ idx _ s k ?_
  have hk : k < 1 + (ext - 1) := by omega
  exact List.mem_range'_1.mpr ⟨h1, hk⟩

theorem extendOperandBits_offset (s : MutationSetState) (rng : EncodingRange)
    (idx ext : Nat) :
    (extendOperandBits s rng idx ext).bit_to_offset = s.bit_to_offset :=
  foldl_extendOne_offset _ idx _ s

/-- C4 (amended): in the tail of the `analysis_operand_fix` loop body, when
at least 8 residuals were collected and the final residual is non-zero and
occurs at least `⌊n/2⌋` times among the `n` residuals, that residual is
recorded as the range's additive offset (`bit_to_offset` at the range's start
bit), and the operand range is extended leftward by `missing - shift` bits —
where `shift` is re-derived as the index of the first residual equal to the
recorded offset — each extension bit assigned to the same operand index.
(The claim as stated omits the `≥ 8` requirement; see the counterexample.) -/
theorem claim_c4_offset_recording (s : MutationSetState) (rng : EncodingRange)
    (idx missing shift0 : Nat) (offsets : List Int) (last : Int)
    (hlast : offsets.getLast? = some last)
    (h8 : 8 ≤ offsets.length)
    (hcount : offsets.length / 2 ≤ offsets.count last)
    (hnz : last ≠ 0) :
    pyGet? (operandFixFinish s rng idx missing shift0 offsets).bit_to_offset
      (rng.start : Int) = some last ∧
    ∀ k : Nat, 1 ≤ k → k ≤ missing - (offsets.map (fun v => v - last)).indexOf 0 →
      ((rng.start : Int) - k) ∈
        (operandFixFinish s rng idx missing shift0 offsets).operand_value_bits ∧
      pyGet? (operandFixFinish s rng idx missing shift0 offsets).bit_to_operand
        ((rng.start : Int) - k) = some idx := by
  unfold operandFixFinish
  rw [hlast]
  dsimp only
  rw [if_pos ⟨h8, hcount, hnz⟩]
  by_cases hsh : (offsets.map (fun v => v - last)).indexOf 0 ≠ 0
  · rw [if_pos hsh]
    constructor
    · rw [extendOperandBits_offset]
      show pyGet? (pySet s.bit_to_offset (rng.start : Int) last) (rng.start : Int) =
        some last
      rw [pyGet?_set, if_pos rfl]
    · intro k hk1 hk2
      exact extendOperandBits_mem _ rng idx _ k hk1 (by omega)
  · rw [if_neg hsh]
    constructor
    · rw [extendOperandBits_offset]
      show pyGet? (pySet s.bit_to_offset (rng.start : Int) last) (rng.start : Int) =
        some last
      rw [pyGet?_set, if_pos rfl]
    · intro k hk1 hk2
      exact extendOperandBits_mem _ rng idx _ k hk1 (by omega)

/-- Concrete residual list for the witness: eight residuals, all 5. -/
def c4Offsets : List Int := [5, 5, 5, 5, 5, 5, 5, 5]

/-- Concrete operand range used in the C4 instances. -/
def c4Range : EncodingRange :=
  { type := .OPERAND, start := 40, length := 4, operand_index := some 0 }

/-- A mutation-set state with one 4-bit integer-immediate operand range at
bits 40–43. -/
def c4Demo : MutationSetState :=
  { inst := 0, key := "K", parsed_operands := [Oper.intImm],
    operand_value_bits := [40, 41, 42, 43], operand_modifier_bits := [],
    operand_modifier_bit_flag := [], instruction_modifier_bit_flag := [],
    bit_to_operand := [(40, 0), (41, 0), (42, 0), (43, 0)],
    bit_to_shift := [], bit_to_offset := [],
    predicate_bits := [], modifier_bits := [], modifier_groups := [] }

/-- Concrete instantiation of `claim_c4_offset_recording`: with 8 residuals
all equal to 5, the offset 5 is recorded at bit 40 and the range is extended
by `missing - 0 = 3` bits. -/
theorem claim_c4_witness :
    pyGet? (operandFixFinish c4Demo c4Range 0 3 0 c4Offsets).bit_to_offset 40 =
      some 5 ∧
    ((40 : Int) - 3) ∈
      (operandFixFinish c4Demo c4Range 0 3 0 c4Offsets).operand_value_bits := by
  have h := claim_c4_offset_recording c4Demo c4Range 0 3 0 c4Offsets 5
    (by decide) (by decide) (by decide) (by decide)
  exact ⟨h.1, (h.2 3 (by decide) (by decide)).1⟩

/-- The deterministic oracle of the C4 counterexample: the five words probed
by the pass on `c4Demo` (`2^38`, `2^39`, `2^40`, `2^41` are the four
single-bit probes at offset 2). -/
def c4Oracle : OperandOracle := fun w =>
  if w = 0 then some [some 100]
  else if w = 2 ^ 40 then some [some 104]
  else if w = 2 ^ 38 then some [some 6]
  else if w = 2 ^ 39 then some [some 7]
  else if w = 2 ^ 41 then some [some 13]
  else none

set_option maxRecDepth 8000 in
/-- C4 counterexample to the claim as stated: on `c4Demo` with `c4Oracle`,
the probed `OPERAND` range yields the four residuals `[5, 5, 100, 5]`, whose
final value 5 is non-zero and occurs `3 ≥ ⌊4/2⌋` times (at least half of the
probes) — yet `analysis_operand_fix` records no offset and performs no
extension (the state is returned unchanged), because the code additionally
requires `len(offsets) >= 8` and instead takes the `failed to correct`
branch. -/
theorem claim_c4_counterexample :
    opProbeGo c4Oracle c4Range 2 (List.range 4) c4Demo [] =
      some ([5, 5, 100, 5], 0, false, c4Demo) ∧
    ([5, 5, 100, 5] : List Int).getLast? = some 5 ∧
    (5 : Int) ≠ 0 ∧
    ([5, 5, 100, 5] : List Int).length / 2 ≤ ([5, 5, 100, 5] : List Int).count 5 ∧
    analysis_operand_fix c4Oracle c4Demo = some c4Demo := by
  decide


/-! ### C6: `InstructionSpec.get_modifier_values` (lines 1292-1374) -/

/-- A `collections.Counter` with string keys: the underlying dict, an
insertion-ordered association list of `(token, count)` pairs. -/
abbrev PyCounter := List (String × Int)

/-- `counts[k]` on a `Counter`: 0 when the key is absent. -/
def counterGet (c : PyCounter) (k : String) : Int :=
  (pyGet? c k).getD 0

/-- `k in counts`: key presence in the underlying dict — entries with zero
or negative counts still count as present until deleted. -/
def counterMem (c : PyCounter) (k : String) : Bool :=
  (pyGet? c k).isSome

/-- `Counter(modifiers)` (line 1294): token counts in first-occurrence
order. -/
def counterInit (l : List String) : PyCounter :=
  l.foldl (fun c2 t2 => pySet c2 t2 (counterGet c2 t2 + 1)) []

/-- `counter_remove_zeros` (lines 1217-1220): delete entries whose count is
exactly 0 — negative counts survive. -/
def counterRemoveZeros (c : PyCounter) : PyCounter :=
  c.filter (fun p => p.2 ≠ 0)

/-- `sum(counts.values())`. -/
def counterSum (c : PyCounter) : Int :=
  (c.map (fun p => p.2)).sum

/-- The state of an `InstructionSpec` consumed by `get_modifier_values`:
`opcode_modis`, the flattened modifier table `all_modifiers` (lines
1245-1248, one `(name, group index, value)` entry per table row), the
number of modifier groups `len(self.modifiers)`, and the flag-name list
`self.ranges.get_flags()` (entries may be `None`). -/
structure SpecState where
  opcode_modis : List String
  all_modifiers : List (String × Nat × Nat)
  numGroups : Nat
  flags : List (Option String)
deriving DecidableEq

/-- The opcode-modifier subtraction loop (lines 1296-1299): decrement the
request counter for each opcode modifier, returning `None` as soon as a
count goes negative. -/
def subtractOpcodeGo : List String → PyCounter → Option PyCounter
  | [], c => some c
  | m :: rest, c =>
    if counterGet (pySet c m (counterGet c m - 1)) m < 0 then none
    else subtractOpcodeGo rest (pySet c m (counterGet c m - 1))

/-- The simulation loop of `score_match` (lines 1311-1317): decrement the
copied counter for each group token, failing with score 0 on a negative
count and dropping exact zeros after every step; on success the score is
the sum of the outer counts minus the sum of what remains of the copy. -/
def scoreGo (counts : PyCounter) : List String → PyCounter → Int
  | [], curr => counterSum counts - counterSum curr
  | m :: rest, curr =>
    if counterGet (pySet curr m (counterGet curr m - 1)) m < 0 then 0
    else scoreGo counts rest (counterRemoveZeros (pySet curr m (counterGet curr m - 1)))

/-- `score_match` (lines 1301-1318): a group with a non-empty token absent
from `counts` scores 0 (lines 1303-1309; `_counts = Counter(counts)` copies
zero and negative entries too, so the copy starts equal to `counts`). -/
def score_match (counts : PyCounter) (group : List String) : Int :=
  if group.all (fun m => m.length == 0 || counterMem counts m) then
    scoreGo counts group counts
  else 0

/-- One scan for the best candidate group (lines 1326-1341): skip used
group indices, split the stored name on `.` dropping empty tokens, keep
the strictly best score.  `best_match` starts at 0 and only ever increases
to a strictly larger score, so the `best_match != 0` test of line 1342
holds exactly when a candidate was recorded — the fold returns that
candidate. -/
def bestCandidate (sp : SpecState) (counts : PyCounter) (used : List Nat) :
    Option (Nat × Nat × List String) :=
  (sp.all_modifiers.foldl
    (fun best entry =>
      if entry.2.1 ∈ used then best
      else if best.1 < score_match counts
          ((entry.1.splitOn ".").filter (fun t => t.length != 0)) then
        (score_match counts ((entry.1.splitOn ".").filter (fun t => t.length != 0)),
          some (entry.2.1, entry.2.2,
            (entry.1.splitOn ".").filter (fun t => t.length != 0)))
      else best)
    ((0 : Int), (none : Option (Nat × Nat × List String)))).2

/-- Consuming the winning group (lines 1346-1348): decrement each token and
drop exact zeros after every step. -/
def consumeGroup (counts : PyCounter) (grp : List String) : PyCounter :=
  grp.foldl (fun c m => counterRemoveZeros (pySet c m (counterGet c m - 1))) counts

/-- The greedy `while` loop (lines 1320-1348), fuelled.  Every changing
iteration adds a group index not previously in `used_modis` (used indices
are skipped when scanning candidates), so at most `len(all_modifiers)`
iterations change anything and the fuel `all_modifiers.length + 1` passed
by `get_modifier_values` makes this equal to the unbounded loop.
`modi_values[best_i] = best_value` is modelled with `List.set` (the group
index is always in bounds in states the constructor builds). -/
def greedyLoop (sp : SpecState) :
    Nat → PyCounter → List Nat → List Nat → PyCounter × List Nat × List Nat
  | 0, counts, mv, used => (counts, mv, used)
  | fuel + 1, counts, mv, used =>
    if counts = [] then (counts, mv, used)
    else
      match bestCandidate sp counts used with
      | none => (counts, mv, used)
      | some (gi, value, grp) =>
        greedyLoop sp fuel (consumeGroup counts grp) (mv.set gi value) (used ++ [gi])

/-- The flag pass (lines 1350-1355): iterate over the keys of the counter
(the decrements change no key set, so iterating a snapshot of the keys is
faithful) and, for each key that occurs in the flag-name list, record it
and decrement its count — possibly from 0 to -1. -/
def flagsPhase (flags : List (Option String)) (counts : PyCounter) :
    PyCounter × List String :=
  (counts.map (fun p => p.1)).foldl
    (fun st name =>
      if (some name) ∈ flags then
        (pySet st.1 name (counterGet st.1 name - 1), st.2 ++ [name])
      else st)
    (counts, [])

/-- The default-value fill (lines 1368-1373): for each table entry whose
group index does not occur among the already-chosen VALUES (`if i in
modi_values` is membership in the value list, not an index test) and whose
stored name is empty, set that group's value. -/
def defaultFill (sp : SpecState) (mv : List Nat) : List Nat :=
  sp.all_modifiers.foldl
    (fun mv2 entry =>
      if entry.2.1 ∈ mv2 then mv2
      else if entry.1.length ≠ 0 then mv2
      else mv2.set entry.2.1 entry.2.2)
    mv

/-- `InstructionSpec.get_modifier_values` (lines 1292-1374): subtract the
opcode modifiers (`None` on underflow), run the greedy group matching,
decrement flag-named leftovers, and fail unless the counter — cleared of
exact zeros only — is empty; on success fill in default values and return
the per-group values together with the used flags. -/
def get_modifier_values (sp : SpecState) (modifiers : List String) :
    Option (List Nat × List String) :=
  match subtractOpcodeGo sp.opcode_modis (counterInit modifiers) with
  | none => none
  | some counts0 =>
    let g := greedyLoop sp (sp.all_modifiers.length + 1) counts0
      (List.replicate sp.numGroups 0) []
    let f := flagsPhase sp.flags g.1
    if counterRemoveZeros f.1 ≠ [] then none
    else some (defaultFill sp g.2.1, f.2)

theorem counterGet_set (c : PyCounter) (k : String) (v : Int) (t : String) :
    counterGet (pySet c k v) t = if k = t then v else counterGet c t := by
  unfold counterGet
  rw [pyGet?_set]
  by_cases h : k = t <;> simp [h]

theorem counterInit_go :
    ∀ (l : List String) (c : PyCounter) (t : String),
      counterGet (l.foldl (fun c2 t2 => pySet c2 t2 (counterGet c2 t2 + 1)) c) t
        = counterGet c t + (l.count t : Int) := by
  intro l
  induction l with
  | nil =>
    intro c t
    simp
  | cons a rest ih =>
    intro c t
    rw [List.foldl_cons, ih, counterGet_set]
    by_cases h : a = t
    · subst h
      rw [if_pos rfl, List.count_cons_self]
      push_cast
      omega
    · rw [if_neg h, List.count_cons_of_ne (fun hh => h hh.symm)]

theorem counterGet_init (l : List String) (t : String) :
    counterGet (counterInit l) t = (l.count t : Int) := by
  unfold counterInit
  rw [counterInit_go]
  simp [counterGet, pyGet?]

theorem counterGet_set_self (c : PyCounter) (k : String) (v : Int) :
    counterGet (pySet c k v) k = v := by
  rw [counterGet_set]
  simp

theorem counterGet_set_ne (c : PyCounter) (k : String) (v : Int) (t : String)
    (h : k ≠ t) : counterGet (pySet c k v) t = counterGet c t := by
  rw [counterGet_set, if_neg h]

theorem subtractOpcodeGo_spec :
    ∀ (mods : List String) (c : PyCounter),
      subtractOpcodeGo mods c = none ↔
        ∃ t ∈ mods, counterGet c t < (mods.count t : Int) := by
  intro mods
  induction mods with
  | nil =>
    intro c
    simp [subtractOpcodeGo]
  | cons m rest ih =>
    intro c
    have hc2 : counterGet (pySet c m (counterGet c m - 1)) m
        = counterGet c m - 1 := counterGet_set_self c m (counterGet c m - 1)
    have hstep : subtractOpcodeGo (m :: rest) c
        = if counterGet (pySet c m (counterGet c m - 1)) m < 0 then none
          else subtractOpcodeGo rest (pySet c m (counterGet c m - 1)) := rfl
    by_cases hlt : counterGet (pySet c m (counterGet c m - 1)) m < 0
    · have hL : subtractOpcodeGo (m :: rest) c = none := by
        rw [hstep, if_pos hlt]
      rw [hc2] at hlt
      refine iff_of_true hL ⟨m, List.mem_cons_self m rest, ?_⟩
      rw [List.count_cons_self]
      push_cast
      omega
    · have hL : subtractOpcodeGo (m :: rest) c
          = subtractOpcodeGo rest (pySet c m (counterGet c m - 1)) := by
        rw [hstep, if_neg hlt]
      rw [hc2] at hlt
      push_neg at hlt
      rw [hL, ih]
      constructor
      · rintro ⟨t, htmem, htlt⟩
        by_cases hmt : m = t
        · rw [← hmt] at htlt
          rw [counterGet_set_self] at htlt
          refine ⟨m, List.mem_cons_self m rest, ?_⟩
          rw [List.count_cons_self]
          push_cast
          omega
        · rw [counterGet_set_ne c m (counterGet c m - 1) t hmt] at htlt
          refine ⟨t, List.mem_cons_of_mem m htmem, ?_⟩
          rw [List.count_cons_of_ne (fun hh => hmt hh.symm)]
          exact htlt
      · rintro ⟨t, htmem, htlt⟩
        rcases List.mem_cons.mp htmem with h | h
        · rw [h] at htlt
          rw [List.count_cons_self] at htlt
          push_cast at htlt
          have hmem : m ∈ rest := by
            have hpos : 0 < rest.count m := by omega
            exact List.count_pos_iff.mp hpos
          refine ⟨m, hmem, ?_⟩
          rw [counterGet_set_self]
          omega
        · refine ⟨t, h, ?_⟩
          by_cases hmt : m = t
          · rw [← hmt] at htlt ⊢
            rw [List.count_cons_self] at htlt
            push_cast at htlt
            rw [counterGet_set_self]
            omega
          · rw [counterGet_set_ne c m (counterGet c m - 1) t hmt]
            rw [List.count_cons_of_ne (fun hh => hmt hh.symm)] at htlt
            exact htlt

/-- C6 (amended): `get_modifier_values` fails on opcode-modifier underflow —
exactly when some opcode modifier's request count is below its opcode
count — and otherwise fails exactly when the counter left after the greedy
group phase and the flag decrements, cleared of exact zeros only, is
non-empty (a flag decrement can push an already-explained token's count to
-1, which also causes failure); on success it returns the default-filled
per-group values and the used flags. -/
theorem claim_c6_solver (sp : SpecState) (request : List String) :
    (subtractOpcodeGo sp.opcode_modis (counterInit request) = none ↔
        ∃ t ∈ sp.opcode_modis,
          (request.count t : Int) < (sp.opcode_modis.count t : Int)) ∧
    (subtractOpcodeGo sp.opcode_modis (counterInit request) = none →
        get_modifier_values sp request = none) ∧
    (∀ counts0,
        subtractOpcodeGo sp.opcode_modis (counterInit request) = some counts0 →
        (counterRemoveZeros
            (flagsPhase sp.flags
              (greedyLoop sp (sp.all_modifiers.length + 1) counts0
                (List.replicate sp.numGroups 0) []).1).1 = [] →
          get_modifier_values sp request =
            some
              (defaultFill sp
                (greedyLoop sp (sp.all_modifiers.length + 1) counts0
                  (List.replicate sp.numGroups 0) []).2.1,
                (flagsPhase sp.flags
                  (greedyLoop sp (sp.all_modifiers.length + 1) counts0
                    (List.replicate sp.numGroups 0) []).1).2)) ∧
        (counterRemoveZeros
            (flagsPhase sp.flags
              (greedyLoop sp (sp.all_modifiers.length + 1) counts0
                (List.replicate sp.numGroups 0) []).1).1 ≠ [] →
          get_modifier_values sp request = none)) := by
  refine ⟨?_, ?_, ?_⟩
  · rw [subtractOpcodeGo_spec]
    constructor
    · rintro ⟨t, hm, hlt⟩
      rw [counterGet_init] at hlt
      exact ⟨t, hm, hlt⟩
    · rintro ⟨t, hm, hlt⟩
      refine ⟨t, hm, ?_⟩
      rw [counterGet_init]
      exact hlt
  · intro h
    unfold get_modifier_values
    rw [h]
  · intro counts0 h
    constructor
    · intro hres
      unfold get_modifier_values
      rw [h]
      dsimp only
      rw [if_neg (fun hne => hne hres)]
    · intro hne
      unfold get_modifier_values
      rw [h]
      dsimp only
      rw [if_pos hne]

/-- C6 counterexample state: a single opcode modifier `X` that is also a
flag name, and no modifier groups. -/
def c6Spec : SpecState where
  opcode_modis := ["X"]
  all_modifiers := []
  numGroups := 0
  flags := [some "X"]

/-- C6 counterexample to the claim as stated: requesting exactly the opcode
modifiers of `c6Spec` subtracts cleanly to a counter of all zeros, the
greedy phase changes nothing, and no count is positive afterwards — no
requested token remains unexplained — yet `get_modifier_values` returns
`None`, because the flag pass decrements the flag-named entry from 0 to -1
and `counter_remove_zeros` keeps negative entries. -/
theorem claim_c6_counterexample :
    subtractOpcodeGo c6Spec.opcode_modis (counterInit ["X"]) =
      some [("X", 0)] ∧
    (greedyLoop c6Spec (c6Spec.all_modifiers.length + 1) [("X", 0)]
        (List.replicate c6Spec.numGroups 0) []).1 = [("X", 0)] ∧
    (∀ p ∈ [(("X" : String), (0 : Int))], p.2 ≤ 0) ∧
    (flagsPhase c6Spec.flags [("X", 0)]).1 = [("X", -1)] ∧
    get_modifier_values c6Spec ["X"] = none := by
  decide

/-- C6 witness: on `c6Spec` with an empty request, the opcode subtraction
underflows at `X` and `get_modifier_values` returns `None`. -/
theorem claim_c6_witness :
    get_modifier_values c6Spec [] = none :=
  (claim_c6_solver c6Spec []).2.1
    ((claim_c6_solver c6Spec []).1.mpr ⟨"X", by decide, by decide⟩)


end NvIsaSolver
